import Mathlib

/-!
# gosync: a content-addressed snapshot store

A shallow embedding of the Go sources (process.go, merge.go, rebuild.go,
chunker.go, database.go) and the properties proved about them.

Conventions of the embedding
* A Go string is the list of its bytes (GoString); comparison with < is the
  byte-wise lexicographic order, as in Go.
* A Go function returning (value, error) returns Except Err value.
* Library calls the sources make (sha256 + hex, encoding/json, fastcdc,
  sort.Slice, os) are parameters of the definitions; a theorem holds for
  every implementation, or for those meeting the contract it states. The
  instances refLib and goJsonLib serve closed examples; healthyDisk and
  idealOS are healthy file systems, used where a theorem says so.
* A path handed to filepath.Join by diff and build is the list of its
  components; this is filepath.Join for names that are single path components
  (validName), and renderPath gives the Go string.
* Recursion over the store (diff, explode, build) carries a depth budget
  called fuel; running out of it is the distinguished error Err.fuel and is
  never a Go error.
-/

namespace GoSync

/-! ## Part 1: the model -/

/-- A Go string, as its bytes. -/
abbrev GoString := List Nat

/-- A Go byte slice. -/
abbrev Bytes := List Nat

/-- An ASCII literal as a Go string. -/
def str (s : String) : GoString := s.toList.map Char.toNat

/-- Go error values, by kind. -/
inductive Err where
  /-- A lookup found no row / no file (sql.ErrNoRows, os.IsNotExist). -/
  | notFound (id : GoString)
  /-- The check len(id) < 2 of the disk block store: "invalid id: too short". -/
  | invalidID
  /-- Any other error handed up from a library call (json, database/sql, os). -/
  | external
  /-- Not a Go error: a run-time panic (slice bounds out of range). -/
  | panic
  /-- Not a Go error: the depth budget of the model ran out. -/
  | fuel
deriving DecidableEq, Repr

deriving instance DecidableEq for Except

/-- The struct Block of process.go. -/
structure Block where
  ID : GoString
  Size : Int
deriving DecidableEq, Repr

/-- The struct DirEntry of process.go; Kind is the Go field Type. -/
structure DirEntry where
  Name : GoString
  Kind : GoString
  ID : GoString
deriving DecidableEq, Repr

/-- The struct Commit of database.go. -/
structure Commit where
  ParentID : GoString
  RootID : GoString
  Timestamp : Int
deriving DecidableEq, Repr

/-- The library functions the sources call: hex.EncodeToString of
sha256.Sum256, json.Marshal / json.Unmarshal at the three record types, the
fastcdc chunker (the chunks it emits for a file, in order), and
sort.Slice(xs, less) on a slice of DirEntry (the slice afterwards). -/
structure Lib where
  sha256hex : Bytes → GoString
  sortSlice : (DirEntry → DirEntry → Bool) → List DirEntry → List DirEntry
  marshalEntries : List DirEntry → Except Err Bytes
  unmarshalEntries : Bytes → Except Err (List DirEntry)
  marshalBlocks : List Block → Except Err Bytes
  unmarshalBlocks : Bytes → Except Err (List Block)
  marshalCommit : Commit → Except Err Bytes
  chunks : Bytes → List Bytes

/-- The slice entries of CalculateDirID after its call
sort.Slice(entries, func(i, j) { return entries[i].Name < entries[j].Name }). -/
def sortedEntries (lib : Lib) (entries : List DirEntry) : List DirEntry :=
  lib.sortSlice (fun a b => decide (a.Name < b.Name)) entries

/-- What the documentation of sort.Slice promises for the call CalculateDirID
makes: the slice afterwards holds the same elements, and no element is less
than one that stands before it. The order among elements of equal name is
left open (sort.Slice is not stable). -/
def SortsByName (lib : Lib) : Prop :=
  ∀ entries, (sortedEntries lib entries).Perm entries ∧
    (sortedEntries lib entries).Pairwise (fun a b => ¬ b.Name < a.Name)

/-- CalculateDirID of process.go: sort by name, serialize, hash. -/
def CalculateDirID (lib : Lib) (entries : List DirEntry) : Except Err (GoString × Bytes) :=
  match lib.marshalEntries (sortedEntries lib entries) with
  | .error e => .error e
  | .ok data => .ok (lib.sha256hex data, data)

/-- CalculateFileID of process.go: serialize the block list, hash. -/
def CalculateFileID (lib : Lib) (blocks : List Block) : Except Err (GoString × Bytes) :=
  match lib.marshalBlocks blocks with
  | .error e => .error e
  | .ok data => .ok (lib.sha256hex data, data)

/-! ### merge.go -/

/-- A path, as the list of its components. filepath.Join(path, name) with name
a single path component appends one component; the empty path "" is []. -/
abbrev Path := List GoString

/-- The call filepath.Join(path, name) for a name that is a single path
component (validName). For other names (empty, ".", "..", or holding a
separator) filepath.Join cleans the result and this is not what it returns. -/
def filepathJoin (path : Path) (name : GoString) : Path := path ++ [name]

/-- A name that is a single path component: not empty, without the separator
/ (byte 47), and neither "." nor "..". These are the names os.ReadDir returns,
and for them filepath.Join(path, name) is path, a separator, and name. -/
def validName (name : GoString) : Bool :=
  decide (name ≠ []) && decide (47 ∉ name) && decide (name ≠ str ".") && decide (name ≠ str "..")

/-- The Go string of a path: its components with a separator between them. -/
def renderPath (path : Path) : GoString := [47].intercalate path

/-- The struct Change of merge.go. -/
structure Change where
  Path : Path
  Action : GoString
deriving DecidableEq, Repr

/-- The read side of the interface MetaStore, as diff and build use it. -/
structure MetaStore where
  GetDirEntries : GoString → Except Err (List DirEntry)
  GetFileBlocks : GoString → Except Err (List Block)

/-- A result together with the number of manifest fetches made so far. -/
abbrev Counted (α : Type) := Except Err (α × Nat)

/-- One call db.GetDirEntries(id) against an instrumented store: every call
that returns adds one to the counter of fetches; a call that fails ends the
whole operation with its error, as every caller returns it at once. -/
def fetchDirEntries (db : MetaStore) (id : GoString) (n : Nat) : Counted (List DirEntry) :=
  match db.GetDirEntries id with
  | .error e => .error e
  | .ok entries => .ok (entries, n + 1)

/-- A loop of the shape
for _, e := range entries { sub, err := ex(e); if err != nil { return nil, err }; changes = append(changes, sub...) }
with the slice changes as accumulator. -/
def explodeEach (ex : DirEntry → Nat → Counted (List Change)) :
    List DirEntry → List Change → Nat → Counted (List Change)
  | [], changes, n => .ok (changes, n)
  | e :: rest, changes, n =>
    match ex e n with
    | .error err => .error err
    | .ok (subChanges, n1) => explodeEach ex rest (changes ++ subChanges) n1

/-- The function explode of merge.go. -/
def explode (db : MetaStore) : Nat → DirEntry → Path → GoString → Nat → Counted (List Change)
  | fuel, entry, path, action, n =>
    if entry.Kind = str "file" then
      .ok ([⟨filepathJoin path entry.Name, action⟩], n)
    else if entry.Kind = str "dir" then
      match fuel with
      | 0 => .error .fuel
      | fuel + 1 =>
        match fetchDirEntries db entry.ID n with
        | .error err => .error err
        | .ok (children, n1) =>
          explodeEach (fun child => explode db fuel child (filepathJoin path entry.Name) action)
            children [⟨filepathJoin path entry.Name, action⟩] n1
    else .ok ([], n)

/-- The body of the first loop of diff once both names are equal. The
recursive call of diff is the argument recur. -/
def diffSameName (db : MetaStore) (fuel : Nat)
    (recur : GoString → GoString → Path → Nat → Counted (List Change))
    (path : Path) (oldEntry newEntry : DirEntry) (n : Nat) : Counted (List Change) :=
  if oldEntry.Kind ≠ newEntry.Kind then
    match explode db fuel oldEntry path (str "REMOVED") n with
    | .error err => .error err
    | .ok (removed, n1) =>
      match explode db fuel newEntry path (str "ADDED") n1 with
      | .error err => .error err
      | .ok (added, n2) => .ok (removed ++ added, n2)
  else if oldEntry.ID ≠ newEntry.ID then
    if oldEntry.Kind = str "file" then
      .ok ([⟨filepathJoin path oldEntry.Name, str "MODIFIED"⟩], n)
    else if oldEntry.Kind = str "dir" then
      recur oldEntry.ID newEntry.ID (filepathJoin path oldEntry.Name) n
    else .ok ([], n)
  else .ok ([], n)

/-- The three loops of diff with the old entry at index i fixed: the state is
the rest of the new slice (from index j on), the slice changes and the fetch
counter. The argument next is the loop continued from index i + 1. -/
def diffFrom (exRemoved exAdded : DirEntry → Nat → Counted (List Change))
    (same : DirEntry → DirEntry → Nat → Counted (List Change))
    (oldEntry : DirEntry) (oldRest : List DirEntry)
    (next : List DirEntry → List Change → Nat → Counted (List Change)) :
    List DirEntry → List Change → Nat → Counted (List Change)
  | [], changes, n => explodeEach exRemoved (oldEntry :: oldRest) changes n
  | newEntry :: newRest, changes, n =>
    if oldEntry.Name < newEntry.Name then
      match exRemoved oldEntry n with
      | .error err => .error err
      | .ok (subChanges, n1) => next (newEntry :: newRest) (changes ++ subChanges) n1
    else if newEntry.Name < oldEntry.Name then
      match exAdded newEntry n with
      | .error err => .error err
      | .ok (subChanges, n1) =>
        diffFrom exRemoved exAdded same oldEntry oldRest next newRest (changes ++ subChanges) n1
    else
      match same oldEntry newEntry n with
      | .error err => .error err
      | .ok (subChanges, n1) => next newRest (changes ++ subChanges) n1

/-- The three loops of diff: the state is the rest of the old slice (from i
on), the rest of the new slice (from j on), the slice changes and the fetch
counter. -/
def diffLoop (exRemoved exAdded : DirEntry → Nat → Counted (List Change))
    (same : DirEntry → DirEntry → Nat → Counted (List Change)) :
    List DirEntry → List DirEntry → List Change → Nat → Counted (List Change)
  | [], newEntries, changes, n => explodeEach exAdded newEntries changes n
  | oldEntry :: oldRest, newEntries, changes, n =>
    diffFrom exRemoved exAdded same oldEntry oldRest
      (diffLoop exRemoved exAdded same oldRest) newEntries changes n

/-- The function diff of merge.go. -/
def diff (db : MetaStore) : Nat → GoString → GoString → Path → Nat → Counted (List Change)
  | fuel, oldrootID, newrootID, path, n =>
    if oldrootID = newrootID then .ok ([], n)
    else
      match fuel with
      | 0 => .error .fuel
      | fuel + 1 =>
        match fetchDirEntries db oldrootID n with
        | .error err => .error err
        | .ok (oldEntries, n1) =>
          match fetchDirEntries db newrootID n1 with
          | .error err => .error err
          | .ok (newEntries, n2) =>
            diffLoop (fun e => explode db fuel e path (str "REMOVED"))
              (fun e => explode db fuel e path (str "ADDED"))
              (diffSameName db fuel (diff db fuel) path)
              oldEntries newEntries [] n2


/-! ### Specification-level notions for diff

Defined on the manifests a store serves, independent of the code of diff. -/

/-- The tree under the directory id is present in the store with height at
most h: its manifest can be fetched, is strictly sorted by name, every entry
has kind file or dir, and the same holds below every dir entry. -/
def WellFormed (db : MetaStore) : Nat → GoString → Prop
  | 0, _ => False
  | h + 1, id =>
    match db.GetDirEntries id with
    | .error _ => False
    | .ok entries =>
      entries.Pairwise (fun a b => a.Name < b.Name) ∧
      ∀ e ∈ entries, e.Kind = str "file" ∨ (e.Kind = str "dir" ∧ WellFormed db h e.ID)

/-- Every name in the tree under the directory id, down to depth h, is a
single path component. -/
def namesValid (db : MetaStore) : Nat → GoString → Bool
  | 0, _ => true
  | h + 1, id =>
    match db.GetDirEntries id with
    | .error _ => true
    | .ok entries =>
      entries.all (fun e => validName e.Name && (decide (e.Kind ≠ str "dir") || namesValid db h e.ID))

/-- A decision procedure for WellFormed. -/
def checkWellFormed (db : MetaStore) : Nat → GoString → Bool
  | 0, _ => false
  | h + 1, id =>
    match db.GetDirEntries id with
    | .error _ => false
    | .ok entries =>
      decide (entries.Pairwise (fun a b => a.Name < b.Name)) &&
      entries.all (fun e =>
        decide (e.Kind = str "file") || (decide (e.Kind = str "dir") && checkWellFormed db h e.ID))

/-- What a path (relative to the directory id) names in the tree under id:
the kind and the id of the entry found there, if any. The empty path names
the directory itself. -/
def resolve (db : MetaStore) : GoString → Path → Option (GoString × GoString)
  | id, [] => some (str "dir", id)
  | id, name :: rest =>
    match db.GetDirEntries id with
    | .error _ => none
    | .ok entries =>
      match entries.find? (fun e => e.Name = name) with
      | none => none
      | some e =>
        if e.Kind = str "dir" then resolve db e.ID rest
        else if rest = [] then some (e.Kind, e.ID) else none

/-- What a path relative to an entry names: the entry itself for the empty
path, otherwise what the path names below a directory entry. -/
def resolveEntry (db : MetaStore) (e : DirEntry) (rest : Path) : Option (GoString × GoString) :=
  if e.Kind = str "dir" then resolve db e.ID rest
  else if rest = [] then some (e.Kind, e.ID) else none

/-- The actions the change list is to hold for one path, given what the path
names in the old and in the new tree: REMOVED or ADDED when it exists on one
side only, MODIFIED when it is a file on both sides with different ids,
REMOVED then ADDED when its kind differs, nothing otherwise. -/
def expectedActions : Option (GoString × GoString) → Option (GoString × GoString) → List GoString
  | none, none => []
  | some _, none => [str "REMOVED"]
  | none, some _ => [str "ADDED"]
  | some (k1, i1), some (k2, i2) =>
    if k1 ≠ k2 then [str "REMOVED", str "ADDED"]
    else if k1 = str "file" ∧ i1 ≠ i2 then [str "MODIFIED"]
    else []

/-- The actions a change list holds for the path p, in the order of the list. -/
def actionsAt (p : Path) (changes : List Change) : List GoString :=
  (changes.filter (fun c => c.Path = p)).map Change.Action

/-- The actions a change list holds for the path string s, in the order of the
list: the changes whose Path field, as the Go string, is s. -/
def actionsAtString (s : GoString) (changes : List Change) : List GoString :=
  (changes.filter (fun c => renderPath c.Path = s)).map Change.Action

/-- An entry of a well-formed manifest: a file, or a directory whose tree is
present with height at most h. -/
def EntryOK (db : MetaStore) (h : Nat) (e : DirEntry) : Prop :=
  e.Kind = str "file" ∨ (e.Kind = str "dir" ∧ WellFormed db h e.ID)

/-- The descendants (files and subdirectories) of the directory id found at
dirPath, in pre-order, down to depth h. -/
def descendants (db : MetaStore) : Nat → GoString → Path → List Path
  | 0, _, _ => []
  | h + 1, id, dirPath =>
    match db.GetDirEntries id with
    | .error _ => []
    | .ok children =>
      children.flatMap (fun c =>
        filepathJoin dirPath c.Name ::
          (if c.Kind = str "dir" then descendants db h c.ID (filepathJoin dirPath c.Name) else []))

/-- The expansion of an entry under an action, in the words of the
specification: one change for the entry itself, then, for a directory, one
change for every descendant in pre-order. -/
def expansion (db : MetaStore) (h : Nat) (entry : DirEntry) (path : Path) (action : GoString) :
    List Change :=
  (filepathJoin path entry.Name ::
    (if entry.Kind = str "dir" then descendants db h entry.ID (filepathJoin path entry.Name)
     else [])).map (fun p => ⟨p, action⟩)

/-- One step of the merge of two manifests: a name in the old one only, in
the new one only, or in both. -/
inductive Aligned where
  | removed (oldEntry : DirEntry)
  | added (newEntry : DirEntry)
  | both (oldEntry newEntry : DirEntry)

/-- The name an alignment step is about. -/
def Aligned.name : Aligned → GoString
  | .removed o => o.Name
  | .added n => n.Name
  | .both o _ => o.Name

/-- The merge of the new manifest against the old one from a fixed old entry on. -/
def alignFrom (oldEntry : DirEntry) (oldRest : List DirEntry)
    (next : List DirEntry → List Aligned) : List DirEntry → List Aligned
  | [] => (oldEntry :: oldRest).map .removed
  | newEntry :: newRest =>
    if oldEntry.Name < newEntry.Name then .removed oldEntry :: next (newEntry :: newRest)
    else if newEntry.Name < oldEntry.Name then
      .added newEntry :: alignFrom oldEntry oldRest next newRest
    else .both oldEntry newEntry :: next newRest

/-- The merge of two manifests by name. -/
def align : List DirEntry → List DirEntry → List Aligned
  | [], newEntries => newEntries.map .added
  | oldEntry :: oldRest, newEntries => alignFrom oldEntry oldRest (align oldRest) newEntries

/-- The alignment step for a name, given the entry of that name in the old
and in the new manifest. -/
def pairUp : Option DirEntry → Option DirEntry → Option Aligned
  | some o, some n => some (.both o n)
  | some o, none => some (.removed o)
  | none, some n => some (.added n)
  | none, none => none

/-- The changes for two entries of the same name, given the change list of two
directories (recur). -/
def sameSpec (db : MetaStore) (h : Nat) (recur : GoString → GoString → Path → List Change)
    (path : Path) (o n : DirEntry) : List Change :=
  if o.Kind ≠ n.Kind then
    expansion db h o path (str "REMOVED") ++ expansion db h n path (str "ADDED")
  else if o.ID ≠ n.ID then
    if o.Kind = str "file" then [⟨filepathJoin path o.Name, str "MODIFIED"⟩]
    else if o.Kind = str "dir" then recur o.ID n.ID (filepathJoin path o.Name)
    else []
  else []

/-- The changes one alignment step stands for. -/
def stepChanges (db : MetaStore) (h : Nat) (recur : GoString → GoString → Path → List Change)
    (path : Path) : Aligned → List Change
  | .removed o => expansion db h o path (str "REMOVED")
  | .added n => expansion db h n path (str "ADDED")
  | .both o n => sameSpec db h recur path o n

/-- The change list between two directories of height at most h, as a pure
function of the manifests. -/
def diffSpec (db : MetaStore) : Nat → GoString → GoString → Path → List Change
  | 0, _, _, _ => []
  | h + 1, oldrootID, newrootID, path =>
    if oldrootID = newrootID then []
    else
      match db.GetDirEntries oldrootID, db.GetDirEntries newrootID with
      | .ok oldEntries, .ok newEntries =>
        (align oldEntries newEntries).flatMap (stepChanges db h (diffSpec db h) path)
      | _, _ => []

/-! ### database.go: the relational store -/

/-- The row a query SELECT ... WHERE key = ? returns, if any. -/
def tableGet {κ ν : Type} [DecidableEq κ] : List (κ × ν) → κ → Option ν
  | [], _ => none
  | (k, v) :: rest, key => if k = key then some v else tableGet rest key

/-- The statement INSERT OR IGNORE on a table with primary key κ. -/
def insertOrIgnore {κ ν : Type} [DecidableEq κ] (table : List (κ × ν)) (key : κ) (value : ν) :
    List (κ × ν) :=
  match tableGet table key with
  | some _ => table
  | none => table ++ [(key, value)]

/-- The three tables of SQLStore: blocks(id, data), metadata((id, obj_type), data)
and commits(id, (parent_id, root_id, timestamp)), each a list of rows in
insertion order. The database itself is taken to be healthy: a statement
fails only for the reasons the methods below give. -/
structure SQLStore where
  blocks : List (GoString × Bytes)
  metadata : List ((GoString × GoString) × Bytes)
  commits : List (GoString × Commit)
deriving DecidableEq, Repr

/-- The method SQLStore.Commit. -/
def SQLStore.Commit (lib : Lib) (s : SQLStore) (parentid rootid : GoString) (timestamp : Int) :
    Except Err (GoString × SQLStore) :=
  match lib.marshalCommit ⟨parentid, rootid, timestamp⟩ with
  | .error err => .error err
  | .ok jsonCommit =>
    .ok (lib.sha256hex jsonCommit,
      { s with commits := insertOrIgnore s.commits (lib.sha256hex jsonCommit) ⟨parentid, rootid, timestamp⟩ })

/-- The method SQLStore.GetCommit. -/
def SQLStore.GetCommit (s : SQLStore) (id : GoString) : Except Err GoSync.Commit :=
  match tableGet s.commits id with
  | none => .error (.notFound id)
  | some commit => .ok commit

/-- The method SQLStore.SaveBlock. -/
def SQLStore.SaveBlock (s : SQLStore) (id : GoString) (data : Bytes) : Except Err SQLStore :=
  .ok { s with blocks := insertOrIgnore s.blocks id data }

/-- The method SQLStore.SaveMetadata. -/
def SQLStore.SaveMetadata (s : SQLStore) (id objType : GoString) (data : Bytes) : Except Err SQLStore :=
  .ok { s with metadata := insertOrIgnore s.metadata (id, objType) data }

/-- The method SQLStore.GetDirEntries. -/
def SQLStore.GetDirEntries (lib : Lib) (s : SQLStore) (id : GoString) : Except Err (List DirEntry) :=
  match tableGet s.metadata (id, str "dir") with
  | none => .error (.notFound id)
  | some data =>
    match lib.unmarshalEntries data with
    | .error _ => .error .external
    | .ok entries => .ok entries

/-- The method SQLStore.GetFileBlocks. -/
def SQLStore.GetFileBlocks (lib : Lib) (s : SQLStore) (id : GoString) : Except Err (List Block) :=
  match tableGet s.metadata (id, str "file") with
  | none => .error (.notFound id)
  | some data =>
    match lib.unmarshalBlocks data with
    | .error _ => .error .external
    | .ok blocks => .ok blocks

/-- The method SQLStore.GetBlock. -/
def SQLStore.GetBlock (s : SQLStore) (id : GoString) : Except Err Bytes :=
  match tableGet s.blocks id with
  | none => .error (.notFound id)
  | some data => .ok data

/-! ### database.go: the block store on disk -/

/-- The slice expression s[:k]; none is the run-time panic for k > len(s). -/
def sliceTo (s : GoString) (k : Nat) : Option GoString :=
  if k ≤ s.length then some (s.take k) else none

/-- The slice expression s[k:]; none is the run-time panic for k > len(s). -/
def sliceFrom (s : GoString) (k : Nat) : Option GoString :=
  if k ≤ s.length then some (s.drop k) else none

/-- The functions of packages os and path/filepath that DiskBlockStore calls,
over a file system state φ. Join is filepath.Join on its list of arguments;
MkdirAll and WriteFile give their error (none for nil) and the state
afterwards; Stat gives the error of os.Stat (none for nil: the path exists);
ReadFile gives the bytes or the error; IsNotExist is os.IsNotExist. -/
structure DiskOS (φ : Type) where
  Join : List GoString → GoString
  MkdirAll : φ → GoString → Option Err × φ
  Stat : φ → GoString → Option Err
  WriteFile : φ → GoString → Bytes → Option Err × φ
  ReadFile : φ → GoString → Except Err Bytes
  IsNotExist : Err → Bool

/-- The method DiskBlockStore.SaveBlock: the error it returns (none for nil)
and the file system afterwards. -/
def DiskBlockStore.SaveBlock {φ : Type} (os : DiskOS φ) (basePath : GoString) (fs : φ)
    (id : GoString) (data : Bytes) : Option Err × φ :=
  if id.length < 2 then (some .invalidID, fs)
  else
    match sliceTo id 2, sliceFrom id 2 with
    | some dir, some name =>
      match os.MkdirAll fs (os.Join [basePath, dir]) with
      | (some err, fs1) => (some err, fs1)
      | (none, fs1) =>
        match os.Stat fs1 (os.Join [os.Join [basePath, dir], name]) with
        | none => (none, fs1)
        | some _ => os.WriteFile fs1 (os.Join [os.Join [basePath, dir], name]) data
    | _, _ => (some .panic, fs)

/-- The method DiskBlockStore.GetBlock. -/
def DiskBlockStore.GetBlock {φ : Type} (os : DiskOS φ) (basePath : GoString) (fs : φ)
    (id : GoString) : Except Err Bytes :=
  if id.length < 2 then .error .invalidID
  else
    match sliceTo id 2, sliceFrom id 2 with
    | some dir, some name =>
      match os.ReadFile fs (os.Join [basePath, dir, name]) with
      | .error err => if os.IsNotExist err then .error (.notFound id) else .error err
      | .ok data => .ok data
    | _, _ => .error .panic

/-- The method DiskBlockStore.HasBlock. -/
def DiskBlockStore.HasBlock {φ : Type} (os : DiskOS φ) (basePath : GoString) (fs : φ)
    (id : GoString) : Except Err Bool :=
  match sliceTo id 2, sliceFrom id 2 with
  | some dir, some name =>
    match os.Stat fs (os.Join [basePath, dir, name]) with
    | none => .ok true
    | some err => if os.IsNotExist err then .ok false else .error err
  | _, _ => .error .panic

/-- A disk: the directories and the regular files that exist, by path. -/
structure Disk where
  dirs : List GoString
  files : List (GoString × Bytes)
deriving DecidableEq, Repr

/-- A healthy disk, for paths made of plain file names: filepath.Join drops
empty elements and puts a separator between the others; os.MkdirAll fails only
when a regular file is in the way; os.Stat finds directories and files;
os.WriteFile fails only on a directory and otherwise replaces the content;
os.ReadFile fails on a directory and on a path that does not exist. -/
def healthyDisk : DiskOS Disk where
  Join := fun elems => [47].intercalate (elems.filter (fun e => decide (e ≠ [])))
  MkdirAll := fun d path =>
    if path ∈ d.dirs then (none, d)
    else if (tableGet d.files path).isSome then (some .external, d)
    else (none, { d with dirs := d.dirs ++ [path] })
  Stat := fun d path =>
    if path ∈ d.dirs ∨ (tableGet d.files path).isSome = true then none else some (.notFound path)
  WriteFile := fun d path data =>
    if path ∈ d.dirs then (some .external, d)
    else (none, { d with files := (path, data) :: d.files })
  ReadFile := fun d path =>
    match tableGet d.files path with
    | some data => .ok data
    | none => if path ∈ d.dirs then .error .external else .error (.notFound path)
  IsNotExist := fun err =>
    match err with
    | .notFound _ => true
    | _ => false

/-! ### The interface Store and its two implementations -/

/-- Which implementation of BlockStore a Store uses: SQLStore alone
implements all of Store; main combines DiskBlockStore (with basePath blocks,
here on a healthy disk) with SQLStore in a CompositeStore. -/
inductive BlockBackend where
  | sql
  | disk
deriving DecidableEq, Repr

/-- The state behind a value of the interface Store: the tables of the
database and the disk of the block store. -/
structure StoreState where
  sql : SQLStore
  disk : Disk
deriving DecidableEq, Repr

/-- The call db.SaveBlock(id, data). -/
def StoreState.SaveBlock (backend : BlockBackend) (s : StoreState) (id : GoString) (data : Bytes) :
    Except Err StoreState :=
  match backend with
  | .sql =>
    match s.sql.SaveBlock id data with
    | .error err => .error err
    | .ok sql => .ok { s with sql := sql }
  | .disk =>
    match DiskBlockStore.SaveBlock healthyDisk (str "blocks") s.disk id data with
    | (some err, _) => .error err
    | (none, disk) => .ok { s with disk := disk }

/-- The call db.SaveMetadata(id, typeStr, data). -/
def StoreState.SaveMetadata (s : StoreState) (id objType : GoString) (data : Bytes) :
    Except Err StoreState :=
  match s.sql.SaveMetadata id objType data with
  | .error err => .error err
  | .ok sql => .ok { s with sql := sql }

/-- The call db.GetBlock(id). -/
def StoreState.GetBlock (backend : BlockBackend) (s : StoreState) (id : GoString) : Except Err Bytes :=
  match backend with
  | .sql => s.sql.GetBlock id
  | .disk => DiskBlockStore.GetBlock healthyDisk (str "blocks") s.disk id

/-- The read side of the interface Store, as build uses it. -/
structure Store extends MetaStore where
  GetBlock : GoString → Except Err Bytes

/-- The read side of a store in a given state. -/
def StoreState.view (lib : Lib) (backend : BlockBackend) (s : StoreState) : Store where
  GetDirEntries := s.sql.GetDirEntries lib
  GetFileBlocks := s.sql.GetFileBlocks lib
  GetBlock := s.GetBlock backend

/-- The store with nothing in it. -/
def StoreState.empty : StoreState := ⟨⟨[], [], []⟩, ⟨[], []⟩⟩

/-! ### chunker.go and process.go -/

/-- A node of the directory tree that is read: a regular file with its bytes,
or a directory with its listing in the order os.ReadDir returns it. -/
inductive FsNode where
  | file (data : Bytes)
  | dir (files : List (GoString × FsNode))

/-- The loop of ChunkFile over the chunks the chunker emits. -/
def chunkLoop (lib : Lib) (backend : BlockBackend) :
    List Bytes → List Block → StoreState → Except Err (List Block × StoreState)
  | [], blocks, s => .ok (blocks, s)
  | chunk :: rest, blocks, s =>
    match s.SaveBlock backend (lib.sha256hex chunk) chunk with
    | .error err => .error err
    | .ok s1 => chunkLoop lib backend rest (blocks ++ [⟨lib.sha256hex chunk, chunk.length⟩]) s1

/-- The function ChunkFile of chunker.go, on the bytes of a readable file. -/
def ChunkFile (lib : Lib) (backend : BlockBackend) (data : Bytes) (s : StoreState) :
    Except Err (List Block × StoreState) :=
  chunkLoop lib backend (lib.chunks data) [] s

mutual
/-- The function ProcessDirectory of process.go, on the node found at path;
os.ReadDir fails on a regular file. -/
def ProcessDirectory (lib : Lib) (backend : BlockBackend) :
    FsNode → StoreState → Except Err (GoString × StoreState)
  | .file _, _ => .error .external
  | .dir files, s =>
    match processFiles lib backend files [] s with
    | .error err => .error err
    | .ok (entries, s1) =>
      match CalculateDirID lib entries with
      | .error err => .error err
      | .ok (dirID, dirData) =>
        match s1.SaveMetadata dirID (str "dir") dirData with
        | .error err => .error err
        | .ok s2 => .ok (dirID, s2)
/-- The loop of ProcessDirectory over the listing, with the slice entries as
accumulator. -/
def processFiles (lib : Lib) (backend : BlockBackend) :
    List (GoString × FsNode) → List DirEntry → StoreState → Except Err (List DirEntry × StoreState)
  | [], entries, s => .ok (entries, s)
  | (name, .dir files) :: rest, entries, s =>
    match ProcessDirectory lib backend (.dir files) s with
    | .error err => .error err
    | .ok (childID, s1) =>
      processFiles lib backend rest (entries ++ [⟨name, str "dir", childID⟩]) s1
  | (name, .file data) :: rest, entries, s =>
    match ChunkFile lib backend data s with
    | .error err => .error err
    | .ok (blocks, s1) =>
      match CalculateFileID lib blocks with
      | .error err => .error err
      | .ok (childID, fileData) =>
        match s1.SaveMetadata childID (str "file") fileData with
        | .error err => .error err
        | .ok s2 => processFiles lib backend rest (entries ++ [⟨name, str "file", childID⟩]) s2
end

/-! ### rebuild.go -/

/-- The functions of package os that build calls, over a file system state φ:
each returns its error (none for nil) and the state afterwards. -/
structure FileSys (φ : Type) where
  MkdirAll : φ → Path → Option Err × φ
  WriteFile : φ → Path → Bytes → Option Err × φ

/-- The loop of buildFile over the block list, with fileData as accumulator. -/
def readBlocks (db : Store) : List Block → Bytes → Except Err Bytes
  | [], fileData => .ok fileData
  | block :: rest, fileData =>
    match db.GetBlock block.ID with
    | .error err => .error err
    | .ok blockData => readBlocks db rest (fileData ++ blockData)

/-- The function buildFile of rebuild.go: the error it returns and the file
system afterwards. The result of os.WriteFile is dropped, as in the source. -/
def buildFile {φ : Type} (os : FileSys φ) (db : Store) (fs : φ) (path : Path) (fileid : GoString) :
    Option Err × φ :=
  match db.GetFileBlocks fileid with
  | .error err => (some err, fs)
  | .ok blocks =>
    match readBlocks db blocks [] with
    | .error err => (some err, fs)
    | .ok fileData => (none, (os.WriteFile fs path fileData).2)

/-- The loop of build over the entries; buildDir is the recursive call. -/
def buildEach {φ : Type} (os : FileSys φ) (db : Store) (buildDir : φ → Path → GoString → Option Err × φ)
    (path : Path) : List DirEntry → φ → Option Err × φ
  | [], fs => (none, fs)
  | entry :: rest, fs =>
    if entry.Kind = str "file" then
      match buildFile os db fs (filepathJoin path entry.Name) entry.ID with
      | (some err, fs1) => (some err, fs1)
      | (none, fs1) => buildEach os db buildDir path rest fs1
    else
      match buildDir fs (filepathJoin path entry.Name) entry.ID with
      | (some err, fs1) => (some err, fs1)
      | (none, fs1) => buildEach os db buildDir path rest fs1

/-- The function build of rebuild.go: the error it returns and the file
system afterwards. The result of os.MkdirAll is dropped, as in the source. -/
def build {φ : Type} (os : FileSys φ) (db : Store) : Nat → φ → Path → GoString → Option Err × φ
  | 0, fs, _, _ => (some .fuel, fs)
  | fuel + 1, fs, path, id =>
    match db.GetDirEntries id with
    | .error err => (some err, fs)
    | .ok entries => buildEach os db (build os db fuel) path entries (os.MkdirAll fs path).2

/-! ### Specification-level notions for the stores -/

/-- Every row of the first table is a row of the second, under the same key. -/
def tableExtends {κ ν : Type} [DecidableEq κ] (t u : List (κ × ν)) : Prop :=
  ∀ k v, tableGet t k = some v → tableGet u k = some v

/-- The second store state holds everything the first one holds, under the
same ids and with the same bytes. -/
def StoreState.Extends (s t : StoreState) : Prop :=
  tableExtends s.sql.blocks t.sql.blocks ∧ tableExtends s.sql.metadata t.sql.metadata ∧
  (∀ dir ∈ s.disk.dirs, dir ∈ t.disk.dirs) ∧ tableExtends s.disk.files t.disk.files

/-- A store operation that only adds rows and, once it has succeeded, is
absorbed: on every later state it succeeds with the same result and changes
nothing. -/
def Absorbed {α : Type} (f : StoreState → Except Err (α × StoreState)) : Prop :=
  ∀ s a s1, f s = .ok (a, s1) →
    s.Extends s1 ∧ ∀ s2, s1.Extends s2 → f s2 = .ok (a, s2)

/-! ### Specification-level notions for the round trip -/

/-- What a path names in a file system: a directory, or a regular file with
its bytes. -/
inductive FsObj where
  | dir
  | file (data : Bytes)
deriving DecidableEq, Repr

/-- A file system: what each path names, if anything. -/
abbrev FsState := Path → Option FsObj

/-- Whether a path names a regular file. -/
def isFile : Option FsObj → Bool
  | some (.file _) => true
  | _ => false

/-- A healthy file system. os.MkdirAll(path) fails when a component of path
is a regular file and otherwise makes path and all its parents directories;
os.WriteFile(path, data) fails unless the parent of path is a directory and
path itself is not one, and otherwise makes path a file holding data. -/
def idealOS : FileSys FsState where
  MkdirAll := fun fs path =>
    if ∃ q ∈ path.inits, isFile (fs q) = true then (some .external, fs)
    else (none, fun q => if q <+: path then some .dir else fs q)
  WriteFile := fun fs path data =>
    if path ≠ [] ∧ fs path.dropLast = some .dir ∧ fs path ≠ some .dir then
      (none, fun q => if q = path then some (.file data) else fs q)
    else (some .external, fs)

/-- The destination is empty: nothing exists below dest, and no component of
dest is a regular file. -/
def EmptyAt (fs : FsState) (dest : Path) : Prop :=
  (∀ q, q <+: dest → isFile (fs q) = false) ∧ ∀ name rest, fs (dest ++ name :: rest) = none

/-- The block references of a file: digest and length of each chunk, in the
order the chunker emits them. -/
def fileBlocks (lib : Lib) (data : Bytes) : List Block :=
  (lib.chunks data).map (fun c => ⟨lib.sha256hex c, c.length⟩)

/-- The bytes of a successful serialization (empty when it failed). -/
def bytesOr : Except Err Bytes → Bytes
  | .ok b => b
  | .error _ => []

/-- The serialized manifest of a file. -/
def fileManifest (lib : Lib) (data : Bytes) : Bytes :=
  bytesOr (lib.marshalBlocks (fileBlocks lib data))

/-- The kind of a node, as written into a directory entry. -/
def kindOf : FsNode → GoString
  | .file _ => str "file"
  | .dir _ => str "dir"

mutual
/-- The id of a node: the digest of its serialized manifest. -/
def nodeID (lib : Lib) : FsNode → GoString
  | .file data => lib.sha256hex (fileManifest lib data)
  | .dir files => lib.sha256hex (bytesOr (lib.marshalEntries (sortedEntries lib (entriesOf lib files))))
/-- The directory entries of a listing, in listing order. -/
def entriesOf (lib : Lib) : List (GoString × FsNode) → List DirEntry
  | [] => []
  | (name, node) :: rest => ⟨name, kindOf node, nodeID lib node⟩ :: entriesOf lib rest
end

/-- The serialized manifest of a directory. -/
def dirManifest (lib : Lib) (files : List (GoString × FsNode)) : Bytes :=
  bytesOr (lib.marshalEntries (sortedEntries lib (entriesOf lib files)))

mutual
/-- All nodes of a tree: the node itself and everything below it. -/
def FsNode.subnodes : FsNode → List FsNode
  | .file data => [.file data]
  | .dir files => .dir files :: subnodesOf files
/-- All nodes below a listing. -/
def subnodesOf : List (GoString × FsNode) → List FsNode
  | [] => []
  | (_, node) :: rest => node.subnodes ++ subnodesOf rest
end

mutual
/-- The height of a tree: 0 for a file, 1 for a directory without
subdirectories. -/
def FsNode.height : FsNode → Nat
  | .file _ => 0
  | .dir files => heightOf files + 1
/-- The greatest height of a node in a listing. -/
def heightOf : List (GoString × FsNode) → Nat
  | [] => 0
  | (_, node) :: rest => max node.height (heightOf rest)
end

/-- What a path names in a tree. -/
def FsNode.lookup : FsNode → Path → Option FsObj
  | .file data, [] => some (.file data)
  | .file _, _ :: _ => none
  | .dir _, [] => some .dir
  | .dir files, name :: rest =>
    match files.find? (fun f => f.1 = name) with
    | none => none
    | some f => f.2.lookup rest

/-- What a name and a path below it name among the nodes of a listing. -/
def lookupIn (files : List (GoString × FsNode)) (name : GoString) (rest : Path) : Option FsObj :=
  match files.find? (fun f => f.1 = name) with
  | none => none
  | some f => f.2.lookup rest

/-- The byte sequences the tree builder stores for one node: the chunks and
the manifest of a file, the manifest of a directory. -/
def localArtifacts (lib : Lib) : FsNode → List Bytes
  | .file data => lib.chunks data ++ [fileManifest lib data]
  | .dir files => [dirManifest lib files]

/-- All byte sequences the tree builder stores for a tree. -/
def artifacts (lib : Lib) (tree : FsNode) : List Bytes :=
  tree.subnodes.flatMap (localArtifacts lib)

/-- The names of a directory listing are single path components. -/
def ValidNamesAt : FsNode → Prop
  | .file _ => True
  | .dir files => ∀ f ∈ files, validName f.1 = true

/-- The names of a directory listing are pairwise distinct. -/
def DistinctAt : FsNode → Prop
  | .file _ => True
  | .dir files => (files.map Prod.fst).Nodup

/-- The chunks of a file concatenate to the file. -/
def ChunksAt (lib : Lib) : FsNode → Prop
  | .file data => (lib.chunks data).flatten = data
  | .dir _ => True

/-- The manifest of a node is serialized without loss: json.Unmarshal of the
serialized manifest gives the manifest back. -/
def LosslessAt (lib : Lib) : FsNode → Prop
  | .file data => lib.unmarshalBlocks (fileManifest lib data) = .ok (fileBlocks lib data)
  | .dir files =>
    lib.unmarshalEntries (dirManifest lib files) = .ok (sortedEntries lib (entriesOf lib files))

/-- All byte sequences a store state holds in its blocks and metadata tables. -/
def storedBytes (s : StoreState) : List Bytes :=
  s.sql.blocks.map Prod.snd ++ s.sql.metadata.map Prod.snd

/-- Invariant I1 on the relational tables: every row is stored under the
digest of its bytes. -/
def StoreState.Consistent (lib : Lib) (s : StoreState) : Prop :=
  (∀ row ∈ s.sql.blocks, row.1 = lib.sha256hex row.2) ∧
  (∀ row ∈ s.sql.metadata, row.1.1 = lib.sha256hex row.2)

/-- The hash has no collision among the given byte sequences. -/
def CollisionFree (lib : Lib) (xs : List Bytes) : Prop :=
  ∀ a ∈ xs, ∀ b ∈ xs, lib.sha256hex a = lib.sha256hex b → a = b

/-- The store serves a node: its manifest under its id and, for a file, every
chunk under its digest. -/
def HoldsAt (lib : Lib) (s : StoreState) : FsNode → Prop
  | .file data =>
    s.sql.GetFileBlocks lib (nodeID lib (.file data)) = .ok (fileBlocks lib data) ∧
    ∀ c ∈ lib.chunks data, s.sql.GetBlock (lib.sha256hex c) = .ok c
  | .dir files =>
    s.sql.GetDirEntries lib (nodeID lib (.dir files)) = .ok (sortedEntries lib (entriesOf lib files))

/-- Every row of the relational tables is stored under the digest of its
bytes, and its bytes are among xs. -/
def RowsIn (lib : Lib) (xs : List Bytes) (s : StoreState) : Prop :=
  (∀ row ∈ s.sql.blocks, row.1 = lib.sha256hex row.2 ∧ row.2 ∈ xs) ∧
  (∀ row ∈ s.sql.metadata, row.1.1 = lib.sha256hex row.2 ∧ row.2 ∈ xs)

/-- A node the store can restore: the store serves it, the names of its
listing are distinct and the chunks of its file concatenate to the file. -/
def Restorable (lib : Lib) (s : StoreState) (n : FsNode) : Prop :=
  HoldsAt lib s n ∧ DistinctAt n ∧ ChunksAt lib n

/-- The file system fs1 holds the tree node at path (every path below path
names what it names in the tree), all components of path are directories, and
away from path fs1 is as fs. -/
def RestoredAt (fs fs1 : FsState) (path : Path) (node : FsNode) : Prop :=
  (∀ p, fs1 (path ++ p) = node.lookup p) ∧ (∀ q, q <+: path → fs1 q = some .dir) ∧
  (∀ q, ¬ path <+: q → ¬ q <+: path → fs1 q = fs q)

/-- The state of the file system in the middle of the loop of build: the
components of path are directories, and below path exactly the nodes already
restored exist. -/
def RestoredSoFar (fs : FsState) (path : Path) (done : List (GoString × FsNode)) : Prop :=
  (∀ q, q <+: path → fs q = some .dir) ∧
  ∀ name rest, fs (path ++ name :: rest) = lookupIn done name rest

/-- The listing sorted by name, as the manifest lists it. -/
def sortedFiles (files : List (GoString × FsNode)) : List (GoString × FsNode) :=
  files.insertionSort (fun a b => ¬ b.1 < a.1)

/-! ### Small stores and file systems for closed examples -/

/-- A file system on which every os.MkdirAll and os.WriteFile fails (a
read-only mount); the state lists the files written, so it stays as it is. -/
def readOnlyOS : FileSys (List (Path × Bytes)) where
  MkdirAll := fun fs _ => (some .external, fs)
  WriteFile := fun fs _ _ => (some .external, fs)

/-- A store holding one directory (id root) with one file a.txt of one block. -/
def oneFileStore : Store where
  GetDirEntries := fun id =>
    if id = str "root" then .ok [⟨str "a.txt", str "file", str "f1"⟩] else .error (.notFound id)
  GetFileBlocks := fun id =>
    if id = str "f1" then .ok [⟨str "b1", 2⟩] else .error (.notFound id)
  GetBlock := fun id =>
    if id = str "b1" then .ok (str "hi") else .error (.notFound id)

/-- A store with two roots, old and new: x is a file in old and a directory
in new, y is a directory (two levels deep) in old and a file in new, z is new,
w/k is a file whose id changes, u is unchanged. -/
def twoRootsStore : MetaStore where
  GetDirEntries := fun id =>
    if id = str "old" then
      .ok [⟨str "u", str "file", str "f0"⟩, ⟨str "w", str "dir", str "dw1"⟩,
           ⟨str "x", str "file", str "f1"⟩, ⟨str "y", str "dir", str "d1"⟩]
    else if id = str "new" then
      .ok [⟨str "u", str "file", str "f0"⟩, ⟨str "w", str "dir", str "dw2"⟩,
           ⟨str "x", str "dir", str "d2"⟩, ⟨str "y", str "file", str "f2"⟩,
           ⟨str "z", str "file", str "f3"⟩]
    else if id = str "d1" then
      .ok [⟨str "a", str "file", str "f4"⟩, ⟨str "b", str "dir", str "d3"⟩]
    else if id = str "d3" then .ok [⟨str "c", str "file", str "f5"⟩]
    else if id = str "d2" then .ok [⟨str "a", str "file", str "f1"⟩]
    else if id = str "dw1" then .ok [⟨str "k", str "file", str "f6"⟩]
    else if id = str "dw2" then .ok [⟨str "k", str "file", str "f7"⟩]
    else .error (.notFound id)
  GetFileBlocks := fun id => .error (.notFound id)

/-- A store with two roots: x is a file under kcOld and an empty directory
under kcNew. -/
def kindChangeStore : MetaStore where
  GetDirEntries := fun id =>
    if id = str "kcOld" then .ok [⟨str "x", str "file", str "f1"⟩]
    else if id = str "kcNew" then .ok [⟨str "x", str "dir", str "d1"⟩]
    else if id = str "d1" then .ok []
    else .error (.notFound id)
  GetFileBlocks := fun id => .error (.notFound id)

/-- A small tree, listed out of order: the directory sub holding the file c
(two bytes), the file b.txt (five bytes), the empty directory e and the empty
file a. -/
def sampleTree : FsNode :=
  .dir [(str "sub", .dir [(str "c", .file (str "hi"))]),
        (str "b.txt", .file (str "hello")),
        (str "e", .dir []),
        (str "a", .file [])]

/-! ### A concrete library instance for closed examples -/

/-- A length-prefixed encoding of a string. -/
def encodeStr (s : GoString) : Bytes := s.length :: s

/-- Reads back one length-prefixed string and returns the rest of the input. -/
def takeStr : Bytes → Option (GoString × Bytes)
  | [] => none
  | k :: rest => if k ≤ rest.length then some (rest.take k, rest.drop k) else none

/-- The encoding of one directory entry: its three strings. -/
def encodeEntry (e : DirEntry) : Bytes := encodeStr e.Name ++ encodeStr e.Kind ++ encodeStr e.ID

/-- Reads back k directory entries. -/
def parseEntries : Nat → Bytes → Option (List DirEntry × Bytes)
  | 0, input => some ([], input)
  | k + 1, input =>
    match takeStr input with
    | none => none
    | some (name, r1) =>
      match takeStr r1 with
      | none => none
      | some (kind, r2) =>
        match takeStr r2 with
        | none => none
        | some (id, r3) =>
          match parseEntries k r3 with
          | none => none
          | some (es, r4) => some (⟨name, kind, id⟩ :: es, r4)

/-- The encoding of one block reference: its id and its size. -/
def encodeBlock (b : Block) : Bytes := encodeStr b.ID ++ [b.Size.toNat]

/-- Reads back k block references. -/
def parseBlocks : Nat → Bytes → Option (List Block × Bytes)
  | 0, input => some ([], input)
  | k + 1, input =>
    match takeStr input with
    | none => none
    | some (_, []) => none
    | some (id, size :: r2) =>
      match parseBlocks k r2 with
      | none => none
      | some (bs, r3) => some (⟨id, size⟩ :: bs, r3)

/-- Cuts a byte sequence into chunks of two bytes (the last may have one). -/
def chunkPairs : Bytes → List Bytes
  | [] => []
  | [a] => [[a]]
  | a :: b :: rest => [a, b] :: chunkPairs rest

/-- A small library instance on which every function can be evaluated: the
digest of a byte sequence is the letter h followed by the sequence itself,
sort.Slice is insertion sort (what Go runs on slices of at most 12 elements),
records are written length-prefixed, files are cut into two-byte chunks. -/
def refLib : Lib where
  sha256hex := fun data => str "h" ++ data
  sortSlice := fun less xs => xs.insertionSort (fun a b => less b a = false)
  marshalEntries := fun es => .ok (es.length :: es.flatMap encodeEntry)
  unmarshalEntries := fun data =>
    match data with
    | [] => .error .external
    | k :: rest =>
      match parseEntries k rest with
      | some (es, []) => .ok es
      | _ => .error .external
  marshalBlocks := fun bs => .ok (bs.length :: bs.flatMap encodeBlock)
  unmarshalBlocks := fun data =>
    match data with
    | [] => .error .external
    | k :: rest =>
      match parseBlocks k rest with
      | some (bs, []) => .ok bs
      | _ => .error .external
  marshalCommit := fun c =>
    .ok (encodeStr c.ParentID ++ encodeStr c.RootID ++ [c.Timestamp.natAbs, if c.Timestamp < 0 then 1 else 0])
  chunks := chunkPairs

/-! ### Strings in encoding/json -/

/-- Whether b is a continuation byte of UTF-8 (0x80 to 0xBF). -/
def isCont (b : Nat) : Bool := decide (128 ≤ b) && decide (b ≤ 191)

/-- The size utf8.DecodeRuneInString reports at the head of s when an encoded
rune stands there, and 0 when the head is not valid UTF-8 (the decoder then
reports RuneError with size 1) or s is empty. -/
def runeLen : GoString → Nat
  | [] => 0
  | b0 :: rest =>
    if b0 < 128 then 1
    else if 194 ≤ b0 ∧ b0 ≤ 223 then
      match rest with
      | b1 :: _ => if isCont b1 then 2 else 0
      | _ => 0
    else if 224 ≤ b0 ∧ b0 ≤ 239 then
      match rest with
      | b1 :: b2 :: _ =>
        if isCont b1 && isCont b2 && decide (b0 = 224 → 160 ≤ b1) && decide (b0 = 237 → b1 ≤ 159)
        then 3 else 0
      | _ => 0
    else if 240 ≤ b0 ∧ b0 ≤ 244 then
      match rest with
      | b1 :: b2 :: b3 :: _ =>
        if isCont b1 && isCont b2 && isCont b3 && decide (b0 = 240 → 144 ≤ b1) &&
          decide (b0 = 244 → b1 ≤ 143)
        then 4 else 0
      | _ => 0
    else 0

/-- The loop of the string encoder of encoding/json over the bytes of s, read
back by the decoder: a valid rune is kept, every byte that does not start one
is replaced by U+FFFD (the bytes 0xEF 0xBF 0xBD). The first argument bounds
the number of steps. -/
def coerceLoop : Nat → GoString → GoString
  | 0, _ => []
  | _ + 1, [] => []
  | k + 1, b :: rest =>
    if runeLen (b :: rest) = 0 then [239, 191, 189] ++ coerceLoop k rest
    else (b :: rest).take (runeLen (b :: rest)) ++ coerceLoop k ((b :: rest).drop (runeLen (b :: rest)))

/-- What json.Unmarshal reads back for a string that json.Marshal wrote: the
string coerced to valid UTF-8. -/
def toValidUTF8 (s : GoString) : GoString := coerceLoop s.length s

/-- A library instance that treats strings as encoding/json does: json.Marshal
coerces every string of a record to valid UTF-8, so json.Unmarshal reads the
coerced strings back. Apart from that it is refLib (the byte format is the
length-prefixed one, not JSON text). -/
def goJsonLib : Lib where
  sha256hex := refLib.sha256hex
  sortSlice := refLib.sortSlice
  marshalEntries := fun es =>
    refLib.marshalEntries (es.map (fun e => ⟨toValidUTF8 e.Name, toValidUTF8 e.Kind, toValidUTF8 e.ID⟩))
  unmarshalEntries := refLib.unmarshalEntries
  marshalBlocks := fun bs => refLib.marshalBlocks (bs.map (fun b => ⟨toValidUTF8 b.ID, b.Size⟩))
  unmarshalBlocks := refLib.unmarshalBlocks
  marshalCommit := fun c =>
    refLib.marshalCommit ⟨toValidUTF8 c.ParentID, toValidUTF8 c.RootID, c.Timestamp⟩
  chunks := refLib.chunks

/-! ## Part 2: theorems -/

/-! ### Sorting -/

theorem sortedEntries_perm (lib : Lib) (hsort : SortsByName lib) (entries : List DirEntry) :
    (sortedEntries lib entries).Perm entries :=
  (hsort entries).1

theorem sortedEntries_sorted (lib : Lib) (hsort : SortsByName lib) (entries : List DirEntry) :
    (sortedEntries lib entries).Pairwise (fun a b => a.Name ≤ b.Name) :=
  (hsort entries).2.imp (fun hab => not_lt.mp hab)

theorem strict_of_sorted_nodup (l : List DirEntry)
    (hs : l.Pairwise (fun a b => ¬ b.Name < a.Name)) (hnd : (l.map DirEntry.Name).Nodup) :
    l.Pairwise (fun a b => a.Name < b.Name) := by
  rw [List.Nodup, List.pairwise_map] at hnd
  exact (hs.and hnd).imp (fun h => lt_of_le_of_ne (not_lt.mp h.1) h.2)

theorem sortedEntries_strict (lib : Lib) (hsort : SortsByName lib) (entries : List DirEntry)
    (hdistinct : (entries.map DirEntry.Name).Nodup) :
    (sortedEntries lib entries).Pairwise (fun a b => a.Name < b.Name) :=
  strict_of_sorted_nodup _ (hsort entries).2
    (((sortedEntries_perm lib hsort entries).map DirEntry.Name).nodup_iff.mpr hdistinct)

theorem strictSorted_unique (l1 l2 : List DirEntry) (hp : l1.Perm l2)
    (h1 : l1.Pairwise (fun a b => a.Name < b.Name))
    (h2 : l2.Pairwise (fun a b => a.Name < b.Name)) : l1 = l2 := by
  haveI : IsAntisymm DirEntry (fun a b : DirEntry => a.Name < b.Name) :=
    ⟨fun a b hab hba => absurd hab (lt_asymm hba)⟩
  exact List.eq_of_perm_of_sorted hp h1 h2

/-- Insertion sort by name meets the contract of sort.Slice. -/
theorem insertionSort_sortsByName (entries : List DirEntry) :
    (entries.insertionSort (fun a b => decide (b.Name < a.Name) = false)).Perm entries ∧
    (entries.insertionSort (fun a b => decide (b.Name < a.Name) = false)).Pairwise
      (fun a b => ¬ b.Name < a.Name) := by
  refine ⟨List.perm_insertionSort _ entries, ?_⟩
  have h : (entries.insertionSort (fun a b => decide (b.Name < a.Name) = false)).Sorted
      (fun a b : DirEntry => decide (b.Name < a.Name) = false) := by
    haveI : IsTotal DirEntry (fun a b : DirEntry => decide (b.Name < a.Name) = false) :=
      ⟨fun a b => by
        rcases lt_trichotomy a.Name b.Name with h | h | h
        · exact Or.inl (decide_eq_false (not_lt.mpr (le_of_lt h)))
        · exact Or.inl (decide_eq_false (by rw [h]; exact lt_irrefl _))
        · exact Or.inr (decide_eq_false (not_lt.mpr (le_of_lt h)))⟩
    haveI : IsTrans DirEntry (fun a b : DirEntry => decide (b.Name < a.Name) = false) :=
      ⟨fun a b c hab hbc => decide_eq_false (not_lt.mpr
        (le_trans (not_lt.mp (of_decide_eq_false hab)) (not_lt.mp (of_decide_eq_false hbc))))⟩
    exact List.sorted_insertionSort _ entries
  exact List.Pairwise.imp (fun hab => of_decide_eq_false hab) h

theorem refLib_sorts : SortsByName refLib :=
  fun entries => insertionSort_sortsByName entries

theorem goJsonLib_sorts : SortsByName goJsonLib :=
  fun entries => insertionSort_sortsByName entries

/-- C3, as stated, fails for names that are not valid UTF-8: the two entries
have the distinct names 0xFE and 0xFF, and in the serialized manifest that
CalculateDirID returns both carry the name U+FFFD, so its entries are not
strictly sorted by name. -/
theorem CalculateDirID_manifest_names_collide :
    ([(⟨[254], str "file", str "x"⟩ : DirEntry), ⟨[255], str "file", str "y"⟩].map DirEntry.Name).Nodup ∧
    ∃ id data,
      CalculateDirID goJsonLib [⟨[254], str "file", str "x"⟩, ⟨[255], str "file", str "y"⟩] =
        .ok (id, data) ∧
      goJsonLib.unmarshalEntries data =
        .ok [⟨[239, 191, 189], str "file", str "x"⟩, ⟨[239, 191, 189], str "file", str "y"⟩] ∧
      ¬ ([(⟨[239, 191, 189], str "file", str "x"⟩ : DirEntry),
          ⟨[239, 191, 189], str "file", str "y"⟩].Pairwise (fun a b => a.Name < b.Name)) :=
  ⟨by decide, _, _, rfl, by decide, by decide⟩

/-- C3, amended. With sort.Slice meeting its contract, for entries with
pairwise distinct names: CalculateDirID returns the same result for a list and
for every permutation of it; the list it hands to json.Marshal is the
permutation of the input that is strictly sorted by name in byte-wise order;
whenever json.Marshal succeeds on that list, CalculateDirID returns the digest
of the serialized bytes together with the bytes, for the list and for the
permutation alike; and whenever json.Unmarshal gives that list back from the
bytes (no name was changed in serializing), the entries of the serialized
manifest are a permutation of the input, strictly sorted by name. -/
theorem CalculateDirID_canonical (lib : Lib) (entries shuffled : List DirEntry)
    (hsort : SortsByName lib)
    (hdistinct : (entries.map DirEntry.Name).Nodup) (hperm : shuffled.Perm entries) :
    CalculateDirID lib shuffled = CalculateDirID lib entries ∧
    (sortedEntries lib entries).Pairwise (fun a b => a.Name < b.Name) ∧
    (sortedEntries lib entries).Perm entries ∧
    (∀ data, lib.marshalEntries (sortedEntries lib entries) = .ok data →
      CalculateDirID lib entries = .ok (lib.sha256hex data, data) ∧
      CalculateDirID lib shuffled = .ok (lib.sha256hex data, data) ∧
      (lib.unmarshalEntries data = .ok (sortedEntries lib entries) →
        ∃ decoded, lib.unmarshalEntries data = .ok decoded ∧ decoded.Perm entries ∧
          decoded.Pairwise (fun a b => a.Name < b.Name))) ∧
    (∀ id data, CalculateDirID lib entries = .ok (id, data) →
      lib.marshalEntries (sortedEntries lib entries) = .ok data ∧ id = lib.sha256hex data) := by
  have hs := sortedEntries_strict lib hsort entries hdistinct
  have hd2 : (shuffled.map DirEntry.Name).Nodup := (hperm.map DirEntry.Name).nodup_iff.mpr hdistinct
  have heq : sortedEntries lib shuffled = sortedEntries lib entries :=
    strictSorted_unique _ _
      (((sortedEntries_perm lib hsort shuffled).trans hperm).trans
        (sortedEntries_perm lib hsort entries).symm)
      (sortedEntries_strict lib hsort shuffled hd2) hs
  refine ⟨by simp only [CalculateDirID, heq], hs, sortedEntries_perm lib hsort entries, ?_, ?_⟩
  · intro data hm
    refine ⟨by simp only [CalculateDirID, hm], by simp only [CalculateDirID, heq, hm], ?_⟩
    intro hback
    exact ⟨_, hback, sortedEntries_perm lib hsort entries, hs⟩
  · intro id data h
    unfold CalculateDirID at h
    cases hm : lib.marshalEntries (sortedEntries lib entries) with
    | error e => rw [hm] at h; cases h
    | ok d =>
      rw [hm] at h
      simp only [Except.ok.injEq, Prod.mk.injEq] at h
      obtain ⟨h1, h2⟩ := h
      subst h1 h2
      exact ⟨rfl, rfl⟩

/-- C3, amended, at three entries given in two different orders, on the
library instance that treats strings as encoding/json does: both orders give
the same id and bytes, and the manifest read back from the bytes lists a, b,
c. -/
theorem CalculateDirID_canonical_witness :
    CalculateDirID goJsonLib
        [⟨str "b", str "file", str "x"⟩, ⟨str "a", str "dir", str "y"⟩, ⟨str "c", str "file", str "x"⟩] =
      CalculateDirID goJsonLib
        [⟨str "a", str "dir", str "y"⟩, ⟨str "c", str "file", str "x"⟩, ⟨str "b", str "file", str "x"⟩] ∧
    CalculateDirID goJsonLib
        [⟨str "b", str "file", str "x"⟩, ⟨str "a", str "dir", str "y"⟩, ⟨str "c", str "file", str "x"⟩] =
      .ok (goJsonLib.sha256hex
            [3, 1, 97, 3, 100, 105, 114, 1, 121, 1, 98, 4, 102, 105, 108, 101, 1, 120,
             1, 99, 4, 102, 105, 108, 101, 1, 120],
           [3, 1, 97, 3, 100, 105, 114, 1, 121, 1, 98, 4, 102, 105, 108, 101, 1, 120,
            1, 99, 4, 102, 105, 108, 101, 1, 120]) ∧
    ∃ decoded, goJsonLib.unmarshalEntries
        [3, 1, 97, 3, 100, 105, 114, 1, 121, 1, 98, 4, 102, 105, 108, 101, 1, 120,
         1, 99, 4, 102, 105, 108, 101, 1, 120] = .ok decoded ∧
      decoded.Perm
        [⟨str "a", str "dir", str "y"⟩, ⟨str "c", str "file", str "x"⟩, ⟨str "b", str "file", str "x"⟩] ∧
      decoded.Pairwise (fun a b => a.Name < b.Name) :=
  ⟨(CalculateDirID_canonical goJsonLib
      [⟨str "a", str "dir", str "y"⟩, ⟨str "c", str "file", str "x"⟩, ⟨str "b", str "file", str "x"⟩]
      [⟨str "b", str "file", str "x"⟩, ⟨str "a", str "dir", str "y"⟩, ⟨str "c", str "file", str "x"⟩]
      goJsonLib_sorts (by decide) (by decide)).1,
   by decide,
   ((CalculateDirID_canonical goJsonLib
      [⟨str "a", str "dir", str "y"⟩, ⟨str "c", str "file", str "x"⟩, ⟨str "b", str "file", str "x"⟩]
      [⟨str "b", str "file", str "x"⟩, ⟨str "a", str "dir", str "y"⟩, ⟨str "c", str "file", str "x"⟩]
      goJsonLib_sorts (by decide) (by decide)).2.2.2.1
      [3, 1, 97, 3, 100, 105, 114, 1, 121, 1, 98, 4, 102, 105, 108, 101, 1, 120,
       1, 99, 4, 102, 105, 108, 101, 1, 120] (by decide)).2.2 (by decide)⟩

/-- C7, as stated, fails: on two entries with the same name CalculateDirID
returns an id and a manifest that still holds both entries. -/
theorem CalculateDirID_duplicate_names_accepted :
    ∃ id data,
      CalculateDirID refLib [⟨str "a", str "file", str "x"⟩, ⟨str "a", str "file", str "y"⟩] = .ok (id, data) ∧
      refLib.unmarshalEntries data = .ok [⟨str "a", str "file", str "x"⟩, ⟨str "a", str "file", str "y"⟩] :=
  ⟨_, _, rfl, by decide⟩

/-- C7, amended. CalculateDirID has no check for duplicate names. For every
sort.Slice that meets its contract (whatever order it leaves entries of equal
name in) and every list of entries: whenever json.Marshal succeeds on the
sorted list, CalculateDirID returns the digest of the serialized bytes
together with the bytes, and the list that is serialized is a permutation of
the input (entries with equal names are all kept) in which no entry has a
smaller name than one before it. -/
theorem CalculateDirID_keeps_all_entries (lib : Lib) (entries : List DirEntry) (data : Bytes)
    (hsort : SortsByName lib)
    (hmarshal : lib.marshalEntries (sortedEntries lib entries) = .ok data) :
    CalculateDirID lib entries = .ok (lib.sha256hex data, data) ∧
    (sortedEntries lib entries).Perm entries ∧
    (sortedEntries lib entries).Pairwise (fun a b => a.Name ≤ b.Name) := by
  refine ⟨?_, sortedEntries_perm lib hsort entries, sortedEntries_sorted lib hsort entries⟩
  simp only [CalculateDirID, hmarshal]

/-- C7, amended, at two entries with the same name. -/
theorem CalculateDirID_keeps_all_entries_witness :
    CalculateDirID refLib [⟨str "a", str "file", str "x"⟩, ⟨str "a", str "file", str "y"⟩] =
      .ok (refLib.sha256hex [2, 1, 97, 4, 102, 105, 108, 101, 1, 120, 1, 97, 4, 102, 105, 108, 101, 1, 121],
           [2, 1, 97, 4, 102, 105, 108, 101, 1, 120, 1, 97, 4, 102, 105, 108, 101, 1, 121]) :=
  (CalculateDirID_keeps_all_entries refLib
    [⟨str "a", str "file", str "x"⟩, ⟨str "a", str "file", str "y"⟩] _ refLib_sorts (by decide)).1

/-- C5. For every store (also one that does not hold r), every id r, every
path and every budget, diff on equal ids returns the empty change list, no
error, and leaves the count of manifest fetches as it was. -/
theorem diff_equal_roots (db : MetaStore) (fuel : Nat) (r : GoString) (path : Path) (n : Nat) :
    diff db fuel r r path n = .ok ([], n) := by
  cases fuel <;> simp [diff]

/-! ### Tables -/

theorem tableGet_append {κ ν : Type} [DecidableEq κ] (t u : List (κ × ν)) (k : κ) :
    tableGet (t ++ u) k = match tableGet t k with
      | some v => some v
      | none => tableGet u k := by
  induction t with
  | nil => simp [tableGet]
  | cons row rest ih =>
    obtain ⟨k1, v1⟩ := row
    by_cases h : k1 = k
    · simp [tableGet, h]
    · simp [tableGet, h, ih]

theorem insertOrIgnore_of_some {κ ν : Type} [DecidableEq κ] (t : List (κ × ν)) (k : κ) (v w : ν)
    (h : tableGet t k = some w) : insertOrIgnore t k v = t := by
  simp [insertOrIgnore, h]

theorem tableGet_insertOrIgnore_self {κ ν : Type} [DecidableEq κ] (t : List (κ × ν)) (k : κ) (v : ν) :
    tableGet (insertOrIgnore t k v) k = some ((tableGet t k).getD v) := by
  unfold insertOrIgnore
  cases h : tableGet t k with
  | some w => simp [h]
  | none => simp [tableGet_append, h, tableGet]

theorem tableGet_insertOrIgnore_mono {κ ν : Type} [DecidableEq κ] (t : List (κ × ν)) (k k1 : κ)
    (v w : ν) (h : tableGet t k1 = some w) : tableGet (insertOrIgnore t k v) k1 = some w := by
  unfold insertOrIgnore
  cases hk : tableGet t k with
  | some u => simpa using h
  | none => simp [tableGet_append, h]

theorem insertOrIgnore_idem {κ ν : Type} [DecidableEq κ] (t : List (κ × ν)) (k : κ) (v v1 : ν) :
    insertOrIgnore (insertOrIgnore t k v) k v1 = insertOrIgnore t k v :=
  insertOrIgnore_of_some _ k v1 _ (tableGet_insertOrIgnore_self t k v)

/-- C9. When json.Marshal succeeds on the commit (parent_id, root_id,
timestamp) and no other tuple is stored under its id, Commit returns the
digest of the serialized commit, a second Commit with the same tuple returns
the same id and leaves the store as it is, and GetCommit of that id returns
exactly the tuple. -/
theorem commit_identity (lib : Lib) (s : SQLStore) (parentid rootid : GoString) (timestamp : Int)
    (jsonCommit : Bytes)
    (hmarshal : lib.marshalCommit ⟨parentid, rootid, timestamp⟩ = .ok jsonCommit)
    (hfree : ∀ c, tableGet s.commits (lib.sha256hex jsonCommit) = some c →
      c = ⟨parentid, rootid, timestamp⟩) :
    ∃ s1, SQLStore.Commit lib s parentid rootid timestamp = .ok (lib.sha256hex jsonCommit, s1) ∧
      SQLStore.Commit lib s1 parentid rootid timestamp = .ok (lib.sha256hex jsonCommit, s1) ∧
      SQLStore.GetCommit s1 (lib.sha256hex jsonCommit) = .ok ⟨parentid, rootid, timestamp⟩ := by
  refine ⟨_, by simp only [SQLStore.Commit, hmarshal]; rfl, ?_, ?_⟩
  · simp only [SQLStore.Commit, hmarshal, insertOrIgnore_idem]
  · simp only [SQLStore.GetCommit, tableGet_insertOrIgnore_self]
    cases h : tableGet s.commits (lib.sha256hex jsonCommit) with
    | none => rfl
    | some c => rw [hfree c h]; rfl

/-- C9 at the first commit ("", r1, 1) on an empty store. -/
theorem commit_identity_witness :
    ∃ s1, SQLStore.Commit refLib ⟨[], [], []⟩ [] (str "r1") 1 =
        .ok (refLib.sha256hex [0, 2, 114, 49, 1, 0], s1) ∧
      SQLStore.Commit refLib s1 [] (str "r1") 1 = .ok (refLib.sha256hex [0, 2, 114, 49, 1, 0], s1) ∧
      SQLStore.GetCommit s1 (refLib.sha256hex [0, 2, 114, 49, 1, 0]) = .ok ⟨[], str "r1", 1⟩ :=
  commit_identity refLib ⟨[], [], []⟩ [] (str "r1") 1 [0, 2, 114, 49, 1, 0] (by decide)
    (fun c h => by simp [tableGet] at h)

/-! ### The block store on disk -/

/-- C10, as stated, fails: the id zz! is neither 64 characters long nor
hexadecimal, yet on a healthy disk SaveBlock returns nil and writes the block
to blocks/zz/!, GetBlock returns it and HasBlock reports it. -/
theorem DiskBlockStore_accepts_malformed_id :
    DiskBlockStore.SaveBlock healthyDisk (str "blocks") ⟨[], []⟩ (str "zz!") (str "hi") =
      (none, ⟨[str "blocks/zz"], [(str "blocks/zz/!", str "hi")]⟩) ∧
    DiskBlockStore.GetBlock healthyDisk (str "blocks")
      ⟨[str "blocks/zz"], [(str "blocks/zz/!", str "hi")]⟩ (str "zz!") = .ok (str "hi") ∧
    DiskBlockStore.HasBlock healthyDisk (str "blocks")
      ⟨[str "blocks/zz"], [(str "blocks/zz/!", str "hi")]⟩ (str "zz!") = .ok true := by
  decide

/-- C10, amended. On every file system, SaveBlock and GetBlock reject an id
themselves exactly when it is shorter than two bytes: then they return the
error invalid id, make no call to the file system (the state stays as it is)
and do not panic. An id of two bytes or more, hexadecimal or not and of any
length, is not checked but handed to the file system: SaveBlock returns the
error of os.MkdirAll on the directory of the first two bytes when that call
fails, nil without writing when os.Stat then finds the block path, and the
result of os.WriteFile otherwise; GetBlock returns the bytes os.ReadFile
returns, block-not-found when os.IsNotExist holds of its error, and its error
otherwise. -/
theorem DiskBlockStore_rejects_short_ids_only {φ : Type} (os : DiskOS φ) (basePath : GoString)
    (fs : φ) (id : GoString) (data : Bytes) :
    (id.length < 2 →
      DiskBlockStore.SaveBlock os basePath fs id data = (some .invalidID, fs) ∧
      DiskBlockStore.GetBlock os basePath fs id = .error .invalidID) ∧
    (2 ≤ id.length →
      (∀ err fs1, os.MkdirAll fs (os.Join [basePath, id.take 2]) = (some err, fs1) →
        DiskBlockStore.SaveBlock os basePath fs id data = (some err, fs1)) ∧
      (∀ fs1, os.MkdirAll fs (os.Join [basePath, id.take 2]) = (none, fs1) →
        (os.Stat fs1 (os.Join [os.Join [basePath, id.take 2], id.drop 2]) = none →
          DiskBlockStore.SaveBlock os basePath fs id data = (none, fs1)) ∧
        (os.Stat fs1 (os.Join [os.Join [basePath, id.take 2], id.drop 2]) ≠ none →
          DiskBlockStore.SaveBlock os basePath fs id data =
            os.WriteFile fs1 (os.Join [os.Join [basePath, id.take 2], id.drop 2]) data)) ∧
      (∀ bytes, os.ReadFile fs (os.Join [basePath, id.take 2, id.drop 2]) = .ok bytes →
        DiskBlockStore.GetBlock os basePath fs id = .ok bytes) ∧
      (∀ err, os.ReadFile fs (os.Join [basePath, id.take 2, id.drop 2]) = .error err →
        DiskBlockStore.GetBlock os basePath fs id =
          if os.IsNotExist err then .error (.notFound id) else .error err)) := by
  refine ⟨fun h => ?_, fun h2 => ?_⟩
  · simp [DiskBlockStore.SaveBlock, DiskBlockStore.GetBlock, h]
  · have h : ¬ id.length < 2 := by omega
    refine ⟨fun err fs1 hm => ?_, fun fs1 hm => ⟨fun hs => ?_, fun hs => ?_⟩, fun bytes hr => ?_,
      fun err hr => ?_⟩
    · simp only [DiskBlockStore.SaveBlock, h, if_false, sliceTo, sliceFrom, h2, if_true, hm]
    · simp only [DiskBlockStore.SaveBlock, h, if_false, sliceTo, sliceFrom, h2, if_true, hm, hs]
    · cases hst : os.Stat fs1 (os.Join [os.Join [basePath, id.take 2], id.drop 2]) with
      | none => exact absurd hst hs
      | some e =>
        simp only [DiskBlockStore.SaveBlock, h, if_false, sliceTo, sliceFrom, h2, if_true, hm, hst]
    · simp only [DiskBlockStore.GetBlock, h, if_false, sliceTo, sliceFrom, h2, if_true, hr]
    · simp only [DiskBlockStore.GetBlock, h, if_false, sliceTo, sliceFrom, h2, if_true, hr]

/-- HasBlock has no length check: on an id shorter than two bytes the slice
expression id[:2] panics. -/
theorem DiskBlockStore_HasBlock_short_id_panics :
    DiskBlockStore.HasBlock healthyDisk (str "blocks") ⟨[], []⟩ (str "a") = .error .panic := by
  decide

/-! ### Restore and I/O failures -/

/-- C8 fails on the code: on a file system where every os.MkdirAll and every
os.WriteFile fails, build still returns nil, having written nothing. -/
theorem build_drops_io_errors :
    build readOnlyOS oneFileStore 1 [] [str "output"] (str "root") = (none, []) := by
  decide

/-! ### diff computes the specification-level change list -/

theorem file_ne_dir : str "file" ≠ str "dir" := by decide

theorem WellFormed_succ (db : MetaStore) (h : Nat) (id : GoString) :
    WellFormed db (h + 1) id ↔
      ∃ entries, db.GetDirEntries id = .ok entries ∧
        entries.Pairwise (fun a b => a.Name < b.Name) ∧ ∀ e ∈ entries, EntryOK db h e := by
  unfold WellFormed EntryOK
  cases hg : db.GetDirEntries id with
  | error e => simp
  | ok entries => simp

theorem EntryOK_mono (db : MetaStore) : ∀ (h k : Nat), h ≤ k → ∀ e, EntryOK db h e → EntryOK db k e := by
  intro h
  induction h with
  | zero =>
    intro k _ e he
    rcases he with he | ⟨_, hw⟩
    · exact Or.inl he
    · exact absurd hw (by simp [WellFormed])
  | succ h ih =>
    intro k hk e he
    rcases he with he | ⟨hd, hw⟩
    · exact Or.inl he
    · obtain ⟨k1, rfl⟩ : ∃ k1, k = k1 + 1 := ⟨k - 1, by omega⟩
      refine Or.inr ⟨hd, ?_⟩
      rw [WellFormed_succ] at hw ⊢
      obtain ⟨entries, hg, hs, hall⟩ := hw
      exact ⟨entries, hg, hs, fun c hc => ih k1 (by omega) c (hall c hc)⟩

theorem WellFormed_mono (db : MetaStore) (h k : Nat) (hk : h ≤ k) (id : GoString)
    (hw : WellFormed db h id) : WellFormed db k id := by
  have := EntryOK_mono db h k hk ⟨[], str "dir", id⟩ (Or.inr ⟨rfl, hw⟩)
  rcases this with hf | ⟨_, hw2⟩
  · exact absurd hf (fun hh => file_ne_dir hh.symm)
  · exact hw2

theorem explodeEach_ok (ex : DirEntry → Nat → Counted (List Change)) (g : DirEntry → List Change) :
    ∀ (es : List DirEntry), (∀ e ∈ es, ∀ n, ∃ n1, ex e n = .ok (g e, n1)) →
      ∀ acc n, ∃ n1, explodeEach ex es acc n = .ok (acc ++ es.flatMap g, n1) := by
  intro es
  induction es with
  | nil => intro _ acc n; exact ⟨n, by simp [explodeEach]⟩
  | cons e rest ih =>
    intro hex acc n
    obtain ⟨n1, h1⟩ := hex e (List.mem_cons_self _ _) n
    obtain ⟨n2, h2⟩ := ih (fun c hc => hex c (List.mem_cons_of_mem _ hc)) (acc ++ g e) n1
    refine ⟨n2, ?_⟩
    simp only [explodeEach, h1, h2, List.flatMap_cons, List.append_assoc]

theorem expansion_file (db : MetaStore) (h : Nat) (e : DirEntry) (path : Path) (action : GoString)
    (he : e.Kind = str "file") :
    expansion db h e path action = [⟨filepathJoin path e.Name, action⟩] := by
  simp [expansion, he, file_ne_dir]

theorem expansion_dir (db : MetaStore) (h : Nat) (e : DirEntry) (path : Path) (action : GoString)
    (children : List DirEntry) (he : e.Kind = str "dir")
    (hg : db.GetDirEntries e.ID = .ok children) :
    expansion db (h + 1) e path action =
      ⟨filepathJoin path e.Name, action⟩ ::
        children.flatMap (fun c => expansion db h c (filepathJoin path e.Name) action) := by
  simp only [expansion, he, if_true, descendants, hg, List.map_cons, List.map_flatMap]

theorem explode_ok (db : MetaStore) : ∀ (h fuel : Nat), h ≤ fuel →
    ∀ (e : DirEntry) (path : Path) (action : GoString) (n : Nat), EntryOK db h e →
      ∃ n1, explode db fuel e path action n = .ok (expansion db h e path action, n1) := by
  intro h
  induction h with
  | zero =>
    intro fuel _ e path action n he
    rcases he with he | ⟨_, hw⟩
    · refine ⟨n, ?_⟩
      rw [expansion_file db 0 e path action he]
      cases fuel <;> simp [explode, he]
    · exact absurd hw (by simp [WellFormed])
  | succ h ih =>
    intro fuel hfuel e path action n he
    rcases he with he | ⟨hd, hw⟩
    · refine ⟨n, ?_⟩
      rw [expansion_file db _ e path action he]
      cases fuel <;> simp [explode, he]
    · obtain ⟨f, rfl⟩ : ∃ f, fuel = f + 1 := ⟨fuel - 1, by omega⟩
      rw [WellFormed_succ] at hw
      obtain ⟨children, hg, _, hall⟩ := hw
      have hnf : e.Kind ≠ str "file" := by rw [hd]; exact fun hh => file_ne_dir hh.symm
      obtain ⟨n1, h1⟩ := explodeEach_ok
        (fun child => explode db f child (filepathJoin path e.Name) action)
        (fun c => expansion db h c (filepathJoin path e.Name) action) children
        (fun c hc k => ih f (by omega) c _ action k (hall c hc))
        [⟨filepathJoin path e.Name, action⟩] (n + 1)
      refine ⟨n1, ?_⟩
      rw [expansion_dir db h e path action children hd hg]
      simp only [explode, hnf, hd, if_true, if_false, fetchDirEntries, hg, h1]
      rfl

theorem diffLoop_ok (exRemoved exAdded : DirEntry → Nat → Counted (List Change))
    (same : DirEntry → DirEntry → Nat → Counted (List Change)) (step : Aligned → List Change) :
    ∀ (olds news : List DirEntry),
      (∀ e ∈ olds, ∀ n, ∃ n1, exRemoved e n = .ok (step (.removed e), n1)) →
      (∀ e ∈ news, ∀ n, ∃ n1, exAdded e n = .ok (step (.added e), n1)) →
      (∀ o ∈ olds, ∀ e ∈ news, ∀ n, ∃ n1, same o e n = .ok (step (.both o e), n1)) →
      ∀ acc n, ∃ n1, diffLoop exRemoved exAdded same olds news acc n =
        .ok (acc ++ (align olds news).flatMap step, n1) := by
  intro olds
  induction olds with
  | nil =>
    intro news _ hA _ acc n
    obtain ⟨n1, h1⟩ := explodeEach_ok exAdded (fun e => step (.added e)) news hA acc n
    exact ⟨n1, by simp only [diffLoop, align, h1, List.flatMap_map]⟩
  | cons o olds ih =>
    intro news
    induction news with
    | nil =>
      intro hR _ _ acc n
      obtain ⟨n1, h1⟩ := explodeEach_ok exRemoved (fun e => step (.removed e)) (o :: olds) hR acc n
      exact ⟨n1, by simp only [diffLoop, diffFrom, align, alignFrom, h1, List.flatMap_map]⟩
    | cons e news ihn =>
      intro hR hA hS acc n
      have hRrest : ∀ c ∈ olds, ∀ n, ∃ n1, exRemoved c n = .ok (step (.removed c), n1) :=
        fun c hc => hR c (List.mem_cons_of_mem _ hc)
      have hArest : ∀ c ∈ news, ∀ n, ∃ n1, exAdded c n = .ok (step (.added c), n1) :=
        fun c hc => hA c (List.mem_cons_of_mem _ hc)
      by_cases hlt : o.Name < e.Name
      · obtain ⟨n1, h1⟩ := hR o (List.mem_cons_self _ _) n
        obtain ⟨n2, h2⟩ := ih (e :: news) hRrest hA
          (fun a ha b hb => hS a (List.mem_cons_of_mem _ ha) b hb) (acc ++ step (.removed o)) n1
        refine ⟨n2, ?_⟩
        simp only [diffLoop, diffFrom, align, alignFrom, hlt, if_true, h1, List.flatMap_cons,
          List.append_assoc] at h2 ⊢
        exact h2
      · by_cases hgt : e.Name < o.Name
        · obtain ⟨n1, h1⟩ := hA e (List.mem_cons_self _ _) n
          obtain ⟨n2, h2⟩ := ihn hR hArest
            (fun a ha b hb => hS a ha b (List.mem_cons_of_mem _ hb)) (acc ++ step (.added e)) n1
          refine ⟨n2, ?_⟩
          simp only [diffLoop, diffFrom, align, alignFrom, hlt, hgt, if_true, if_false, h1,
            List.flatMap_cons, List.append_assoc] at h2 ⊢
          exact h2
        · obtain ⟨n1, h1⟩ := hS o (List.mem_cons_self _ _) e (List.mem_cons_self _ _) n
          obtain ⟨n2, h2⟩ := ih news hRrest hArest
            (fun a ha b hb => hS a (List.mem_cons_of_mem _ ha) b (List.mem_cons_of_mem _ hb))
            (acc ++ step (.both o e)) n1
          refine ⟨n2, ?_⟩
          simp only [diffLoop, diffFrom, align, alignFrom, hlt, hgt, if_false, h1,
            List.flatMap_cons, List.append_assoc] at h2 ⊢
          exact h2

theorem diffSameName_ok (db : MetaStore) (h f : Nat) (hf : h ≤ f)
    (recur : GoString → GoString → Path → Nat → Counted (List Change))
    (spec : GoString → GoString → Path → List Change)
    (hrec : ∀ a b p n, WellFormed db h a → WellFormed db h b →
      ∃ n1, recur a b p n = .ok (spec a b p, n1))
    (path : Path) (o e : DirEntry) (ho : EntryOK db h o) (he : EntryOK db h e) (n : Nat) :
    ∃ n1, diffSameName db f recur path o e n = .ok (sameSpec db h spec path o e, n1) := by
  unfold diffSameName sameSpec
  by_cases hk : o.Kind = e.Kind
  · simp only [ne_eq, hk, not_true_eq_false, if_false]
    by_cases hid : o.ID = e.ID
    · exact ⟨n, by simp [hid]⟩
    · simp only [hid, not_false_eq_true, if_true]
      rcases he with he | ⟨hd, hw⟩
      · exact ⟨n, by simp [he]⟩
      · have hnf : e.Kind ≠ str "file" := by rw [hd]; exact fun hh => file_ne_dir hh.symm
        have hwo : WellFormed db h o.ID := by
          rcases ho with ho | ⟨_, hwo⟩
          · exact absurd (hk ▸ ho) hnf
          · exact hwo
        obtain ⟨n1, h1⟩ := hrec o.ID e.ID (filepathJoin path o.Name) n hwo hw
        have hdf : str "dir" ≠ str "file" := fun hh => file_ne_dir hh.symm
        exact ⟨n1, by simp [hnf, hd, h1, hdf]⟩
  · simp only [ne_eq, hk, not_false_eq_true, if_true]
    obtain ⟨n1, h1⟩ := explode_ok db h f hf o path (str "REMOVED") n ho
    obtain ⟨n2, h2⟩ := explode_ok db h f hf e path (str "ADDED") n1 he
    exact ⟨n2, by simp [h1, h2]⟩

theorem diff_ok (db : MetaStore) : ∀ (h fuel : Nat), h ≤ fuel →
    ∀ (oldrootID newrootID : GoString) (path : Path) (n : Nat),
      WellFormed db h oldrootID → WellFormed db h newrootID →
      ∃ n1, diff db fuel oldrootID newrootID path n =
        .ok (diffSpec db h oldrootID newrootID path, n1) := by
  intro h
  induction h with
  | zero => intro fuel _ a b path n hw; exact absurd hw (by simp [WellFormed])
  | succ h ih =>
    intro fuel hfuel a b path n hwa hwb
    obtain ⟨f, rfl⟩ : ∃ f, fuel = f + 1 := ⟨fuel - 1, by omega⟩
    by_cases hab : a = b
    · exact ⟨n, by simp [diff, diffSpec, hab]⟩
    · rw [WellFormed_succ] at hwa hwb
      obtain ⟨olds, hga, _, halla⟩ := hwa
      obtain ⟨news, hgb, _, hallb⟩ := hwb
      obtain ⟨n1, h1⟩ := diffLoop_ok
        (fun e => explode db f e path (str "REMOVED"))
        (fun e => explode db f e path (str "ADDED"))
        (diffSameName db f (diff db f) path)
        (stepChanges db h (diffSpec db h) path) olds news
        (fun e he k => explode_ok db h f (by omega) e path _ k (halla e he))
        (fun e he k => explode_ok db h f (by omega) e path _ k (hallb e he))
        (fun o ho e he k => diffSameName_ok db h f (by omega) (diff db f) (diffSpec db h)
          (fun x y p m hx hy => ih f (by omega) x y p m hx hy) path o e (halla o ho) (hallb e he) k)
        [] (n + 1 + 1)
      refine ⟨n1, ?_⟩
      simp only [diff, hab, if_false, fetchDirEntries, hga, hgb, diffSpec]
      simpa using h1

/-! ### Paths of the specification-level change list -/

theorem descendants_paths (db : MetaStore) : ∀ (h : Nat) (id : GoString) (dirPath q : Path),
    q ∈ descendants db h id dirPath → ∃ name rest, q = dirPath ++ name :: rest := by
  intro h
  induction h with
  | zero => intro id dp q hq; simp [descendants] at hq
  | succ h ih =>
    intro id dp q hq
    unfold descendants at hq
    cases hg : db.GetDirEntries id with
    | error e => simp [hg] at hq
    | ok children =>
      simp only [hg, List.mem_flatMap, List.mem_cons] at hq
      obtain ⟨c, _, hq⟩ := hq
      rcases hq with hq | hq
      · exact ⟨c.Name, [], by simp [hq, filepathJoin]⟩
      · by_cases hd : c.Kind = str "dir"
        · simp only [hd, if_true] at hq
          obtain ⟨name, rest, hq⟩ := ih _ _ _ hq
          exact ⟨c.Name, name :: rest, by simp [hq, filepathJoin]⟩
        · simp [hd] at hq

theorem expansion_paths (db : MetaStore) (h : Nat) (e : DirEntry) (path : Path) (action : GoString)
    (c : Change) (hc : c ∈ expansion db h e path action) :
    ∃ rest, c.Path = path ++ e.Name :: rest ∧ c.Action = action := by
  simp only [expansion, List.map_cons, List.mem_cons, List.mem_map] at hc
  rcases hc with hc | ⟨q, hq, hc⟩
  · exact ⟨[], by simp [hc, filepathJoin]⟩
  · by_cases hd : e.Kind = str "dir"
    · simp only [hd, if_true] at hq
      obtain ⟨name, rest, hq⟩ := descendants_paths db h _ _ _ hq
      exact ⟨name :: rest, by simp [← hc, hq, filepathJoin]⟩
    · simp [hd] at hq

/-! ### Counting the changes at a path -/

theorem actionsAt_nil (p : Path) : actionsAt p [] = [] := rfl

theorem actionsAt_append (p : Path) (a b : List Change) :
    actionsAt p (a ++ b) = actionsAt p a ++ actionsAt p b := by
  simp [actionsAt]

theorem actionsAt_cons (p : Path) (c : Change) (l : List Change) :
    actionsAt p (c :: l) = (if c.Path = p then [c.Action] else []) ++ actionsAt p l := by
  by_cases h : c.Path = p <;> simp [actionsAt, List.filter_cons, h]

theorem actionsAt_flatMap {α : Type} (p : Path) (f : α → List Change) (l : List α) :
    actionsAt p (l.flatMap f) = l.flatMap (fun a => actionsAt p (f a)) := by
  induction l with
  | nil => rfl
  | cons a rest ih => simp [List.flatMap_cons, actionsAt_append, ih]

theorem actionsAt_eq_nil (p : Path) (l : List Change) (h : ∀ c ∈ l, c.Path ≠ p) :
    actionsAt p l = [] := by
  simp only [actionsAt, List.map_eq_nil_iff, List.filter_eq_nil_iff]
  intro c hc
  simpa using h c hc

theorem flatMap_eq_find {α β : Type} (key : α → GoString) (name : GoString) (f : α → List β) :
    ∀ (l : List α), l.Pairwise (fun a b => key a ≠ key b) →
      (∀ a ∈ l, key a ≠ name → f a = []) →
      l.flatMap f = match l.find? (fun a => key a = name) with
        | some a => f a
        | none => [] := by
  intro l
  induction l with
  | nil => intro _ _; rfl
  | cons a rest ih =>
    intro hp hf
    rw [List.pairwise_cons] at hp
    by_cases hk : key a = name
    · have hrest : rest.flatMap f = [] := by
        rw [List.flatMap_eq_nil_iff]
        intro b hb
        exact hf b (List.mem_cons_of_mem _ hb) (fun hh => hp.1 b hb (hk.trans hh.symm))
      simp [List.flatMap_cons, List.find?_cons, hk, hrest]
    · have := ih hp.2 (fun b hb => hf b (List.mem_cons_of_mem _ hb))
      simp [List.flatMap_cons, List.find?_cons, hk, hf a (List.mem_cons_self _ _) hk, this]

theorem sorted_distinct (l : List DirEntry) (h : l.Pairwise (fun a b => a.Name < b.Name)) :
    l.Pairwise (fun a b => a.Name ≠ b.Name) :=
  h.imp (fun hab => ne_of_lt hab)

theorem find_none_of_lt (l : List DirEntry) (name : GoString)
    (h : ∀ e ∈ l, name < e.Name) : l.find? (fun e => e.Name = name) = none := by
  rw [List.find?_eq_none]
  intro e he
  simpa using ne_of_gt (h e he)

theorem find_of_mem_sorted (l : List DirEntry) (h : l.Pairwise (fun a b => a.Name < b.Name))
    (e : DirEntry) (he : e ∈ l) : l.find? (fun c => c.Name = e.Name) = some e := by
  induction l with
  | nil => cases he
  | cons a rest ih =>
    rw [List.pairwise_cons] at h
    rcases List.mem_cons.mp he with rfl | he
    · simp [List.find?_cons]
    · have hne : a.Name ≠ e.Name := ne_of_lt (h.1 e he)
      simp [List.find?_cons, hne, ih h.2 he]

/-! ### The merge of two sorted manifests -/

theorem align_cons (o : DirEntry) (olds news : List DirEntry) :
    align (o :: olds) news = alignFrom o olds (align olds) news := rfl

theorem align_mem : ∀ (olds news : List DirEntry) (a : Aligned), a ∈ align olds news →
    (∃ o ∈ olds, a = .removed o) ∨ (∃ e ∈ news, a = .added e) ∨
    (∃ o ∈ olds, ∃ e ∈ news, a = .both o e ∧ o.Name = e.Name) := by
  intro olds
  induction olds with
  | nil =>
    intro news a ha
    simp only [align, List.mem_map] at ha
    obtain ⟨e, he, rfl⟩ := ha
    exact Or.inr (Or.inl ⟨e, he, rfl⟩)
  | cons o olds ih =>
    intro news
    induction news with
    | nil =>
      intro a ha
      simp only [align, alignFrom, List.mem_map] at ha
      obtain ⟨e, he, rfl⟩ := ha
      exact Or.inl ⟨e, he, rfl⟩
    | cons e news ihn =>
      intro a ha
      rw [align_cons] at ha
      unfold alignFrom at ha
      by_cases hlt : o.Name < e.Name
      · simp only [hlt, if_true, List.mem_cons] at ha
        rcases ha with rfl | ha
        · exact Or.inl ⟨o, List.mem_cons_self _ _, rfl⟩
        · rcases ih (e :: news) a ha with ⟨x, hx, rfl⟩ | ⟨x, hx, rfl⟩ | ⟨x, hx, y, hy, rfl, hxy⟩
          · exact Or.inl ⟨x, List.mem_cons_of_mem _ hx, rfl⟩
          · exact Or.inr (Or.inl ⟨x, hx, rfl⟩)
          · exact Or.inr (Or.inr ⟨x, List.mem_cons_of_mem _ hx, y, hy, rfl, hxy⟩)
      · by_cases hgt : e.Name < o.Name
        · simp only [hlt, hgt, if_true, if_false, List.mem_cons] at ha
          rcases ha with rfl | ha
          · exact Or.inr (Or.inl ⟨e, List.mem_cons_self _ _, rfl⟩)
          · rw [← align_cons] at ha
            rcases ihn a ha with ⟨x, hx, rfl⟩ | ⟨x, hx, rfl⟩ | ⟨x, hx, y, hy, rfl, hxy⟩
            · exact Or.inl ⟨x, hx, rfl⟩
            · exact Or.inr (Or.inl ⟨x, List.mem_cons_of_mem _ hx, rfl⟩)
            · exact Or.inr (Or.inr ⟨x, hx, y, List.mem_cons_of_mem _ hy, rfl, hxy⟩)
        · simp only [hlt, hgt, if_false, List.mem_cons] at ha
          have hname : o.Name = e.Name := le_antisymm (not_lt.mp hgt) (not_lt.mp hlt)
          rcases ha with rfl | ha
          · exact Or.inr (Or.inr ⟨o, List.mem_cons_self _ _, e, List.mem_cons_self _ _, rfl, hname⟩)
          · rcases ih news a ha with ⟨x, hx, rfl⟩ | ⟨x, hx, rfl⟩ | ⟨x, hx, y, hy, rfl, hxy⟩
            · exact Or.inl ⟨x, List.mem_cons_of_mem _ hx, rfl⟩
            · exact Or.inr (Or.inl ⟨x, List.mem_cons_of_mem _ hx, rfl⟩)
            · exact Or.inr (Or.inr ⟨x, List.mem_cons_of_mem _ hx, y, List.mem_cons_of_mem _ hy, rfl, hxy⟩)

theorem align_name_mem (olds news : List DirEntry) (a : Aligned) (ha : a ∈ align olds news) :
    (∃ o ∈ olds, a.name = o.Name) ∨ (∃ e ∈ news, a.name = e.Name) := by
  rcases align_mem olds news a ha with ⟨x, hx, rfl⟩ | ⟨x, hx, rfl⟩ | ⟨x, hx, y, _, rfl, _⟩
  · exact Or.inl ⟨x, hx, rfl⟩
  · exact Or.inr ⟨x, hx, rfl⟩
  · exact Or.inl ⟨x, hx, rfl⟩

theorem align_sorted : ∀ (olds news : List DirEntry),
    olds.Pairwise (fun a b => a.Name < b.Name) → news.Pairwise (fun a b => a.Name < b.Name) →
    (align olds news).Pairwise (fun a b => a.name < b.name) := by
  intro olds
  induction olds with
  | nil =>
    intro news _ hn
    simp only [align, List.pairwise_map]
    exact hn
  | cons o olds ih =>
    intro news
    induction news with
    | nil =>
      intro ho _
      simp only [align, alignFrom, List.pairwise_map]
      exact ho
    | cons e news ihn =>
      intro ho hn
      have ho2 := List.pairwise_cons.mp ho
      have hn2 := List.pairwise_cons.mp hn
      rw [align_cons]
      unfold alignFrom
      by_cases hlt : o.Name < e.Name
      · simp only [hlt, if_true, List.pairwise_cons]
        refine ⟨fun a ha => ?_, ih (e :: news) ho2.2 hn⟩
        rcases align_name_mem olds (e :: news) a ha with ⟨x, hx, hax⟩ | ⟨x, hx, hax⟩
        · rw [hax]; exact ho2.1 x hx
        · rw [hax]
          rcases List.mem_cons.mp hx with rfl | hx
          · exact hlt
          · exact lt_trans hlt (hn2.1 x hx)
      · by_cases hgt : e.Name < o.Name
        · simp only [hlt, hgt, if_true, if_false, List.pairwise_cons]
          rw [← align_cons]
          refine ⟨fun a ha => ?_, ihn ho hn2.2⟩
          rcases align_name_mem (o :: olds) news a ha with ⟨x, hx, hax⟩ | ⟨x, hx, hax⟩
          · rw [hax]
            rcases List.mem_cons.mp hx with rfl | hx
            · exact hgt
            · exact lt_trans hgt (ho2.1 x hx)
          · rw [hax]; exact hn2.1 x hx
        · simp only [hlt, hgt, if_false, List.pairwise_cons]
          have hname : o.Name = e.Name := le_antisymm (not_lt.mp hgt) (not_lt.mp hlt)
          refine ⟨fun a ha => ?_, ih news ho2.2 hn2.2⟩
          rcases align_name_mem olds news a ha with ⟨x, hx, hax⟩ | ⟨x, hx, hax⟩
          · rw [hax]; exact ho2.1 x hx
          · rw [hax]
            show o.Name < x.Name
            rw [hname]
            exact hn2.1 x hx

theorem pairUp_none_left (x : Option DirEntry) : pairUp none x = x.map .added := by
  cases x <;> rfl

theorem pairUp_none_right (x : Option DirEntry) : pairUp x none = x.map .removed := by
  cases x <;> rfl

theorem align_find (name : GoString) : ∀ (olds news : List DirEntry),
    olds.Pairwise (fun a b => a.Name < b.Name) → news.Pairwise (fun a b => a.Name < b.Name) →
    (align olds news).find? (fun a => a.name = name) =
      pairUp (olds.find? (fun e => e.Name = name)) (news.find? (fun e => e.Name = name)) := by
  intro olds
  induction olds with
  | nil =>
    intro news _ _
    simp only [align, List.find?_map, List.find?_nil, pairUp_none_left]
    rfl
  | cons o olds ih =>
    intro news
    induction news with
    | nil =>
      intro _ _
      simp only [align, alignFrom, List.find?_map, List.find?_nil, pairUp_none_right]
      rfl
    | cons e news ihn =>
      intro ho hn
      have ho2 := List.pairwise_cons.mp ho
      have hn2 := List.pairwise_cons.mp hn
      rw [align_cons]
      unfold alignFrom
      by_cases hlt : o.Name < e.Name
      · simp only [hlt, if_true]
        by_cases hk : o.Name = name
        · have hnone : (e :: news).find? (fun c => c.Name = name) = none := by
            apply find_none_of_lt
            intro x hx
            rw [← hk]
            rcases List.mem_cons.mp hx with rfl | hx
            · exact hlt
            · exact lt_trans hlt (hn2.1 x hx)
          rw [hnone]
          simp [List.find?_cons, hk, Aligned.name, pairUp]
        · rw [List.find?_cons, List.find?_cons (a := o)]
          simp only [Aligned.name, hk, decide_False]
          exact ih (e :: news) ho2.2 hn
      · by_cases hgt : e.Name < o.Name
        · simp only [hlt, hgt, if_true, if_false]
          rw [← align_cons]
          by_cases hk : e.Name = name
          · have hnone : (o :: olds).find? (fun c => c.Name = name) = none := by
              apply find_none_of_lt
              intro x hx
              rw [← hk]
              rcases List.mem_cons.mp hx with rfl | hx
              · exact hgt
              · exact lt_trans hgt (ho2.1 x hx)
            rw [hnone]
            simp [List.find?_cons, hk, Aligned.name, pairUp]
          · rw [List.find?_cons, List.find?_cons (a := e)]
            simp only [Aligned.name, hk, decide_False]
            exact ihn ho hn2.2
        · simp only [hlt, hgt, if_false]
          have hname : o.Name = e.Name := le_antisymm (not_lt.mp hgt) (not_lt.mp hlt)
          by_cases hk : o.Name = name
          · have hk2 : e.Name = name := hname ▸ hk
            simp [List.find?_cons, hk, hk2, Aligned.name, pairUp]
          · have hk2 : ¬ e.Name = name := hname ▸ hk
            rw [List.find?_cons, List.find?_cons (a := o), List.find?_cons (a := e)]
            simp only [Aligned.name, hk, hk2, decide_False]
            exact ih news ho2.2 hn2.2

/-! ### What the expansion of an entry holds for a path -/

theorem resolve_cons (db : MetaStore) (id name : GoString) (rest : Path) (entries : List DirEntry)
    (hg : db.GetDirEntries id = .ok entries) :
    resolve db id (name :: rest) =
      match entries.find? (fun e => e.Name = name) with
      | none => none
      | some e => resolveEntry db e rest := by
  rw [resolve]
  simp only [hg]
  cases entries.find? (fun e => e.Name = name) <;> rfl

theorem resolveEntry_nil (db : MetaStore) (h : Nat) (e : DirEntry) (he : EntryOK db h e) :
    resolveEntry db e [] = some (e.Kind, e.ID) := by
  rcases he with he | ⟨hd, _⟩
  · simp [resolveEntry, he, file_ne_dir]
  · simp [resolveEntry, hd, resolve]

theorem resolveEntry_file (db : MetaStore) (e : DirEntry) (name : GoString) (rest : Path)
    (he : e.Kind = str "file") : resolveEntry db e (name :: rest) = none := by
  simp [resolveEntry, he, file_ne_dir]

theorem append_cons_ne_self (path rest : Path) (a b : GoString) :
    path ++ [a] ≠ path ++ a :: b :: rest := by
  intro h
  have := congrArg List.length h
  simp at this

theorem expansion_actions_other (db : MetaStore) (h : Nat) (e : DirEntry) (path q : Path)
    (action : GoString) (hq : ∀ rest, q ≠ path ++ e.Name :: rest) :
    actionsAt q (expansion db h e path action) = [] := by
  apply actionsAt_eq_nil
  intro c hc hcq
  obtain ⟨rest, hr, _⟩ := expansion_paths db h e path action c hc
  exact hq rest (hcq ▸ hr)

theorem expansion_actions (db : MetaStore) : ∀ (h : Nat) (e : DirEntry) (path : Path)
    (action : GoString) (rest : Path), EntryOK db h e →
    actionsAt (path ++ e.Name :: rest) (expansion db h e path action) =
      if (resolveEntry db e rest).isSome then [action] else [] := by
  have hfile : ∀ (h : Nat) (e : DirEntry) (path : Path) (action : GoString) (rest : Path),
      e.Kind = str "file" →
      actionsAt (path ++ e.Name :: rest) (expansion db h e path action) =
        if (resolveEntry db e rest).isSome then [action] else [] := by
    intro h e path action rest he
    rw [expansion_file db h e path action he]
    cases rest with
    | nil => simp [actionsAt_cons, actionsAt_nil, filepathJoin, resolveEntry, he, file_ne_dir]
    | cons b rest =>
      simp [actionsAt_cons, actionsAt_nil, filepathJoin, resolveEntry, he, file_ne_dir]
  intro h
  induction h with
  | zero =>
    intro e path action rest he
    rcases he with he | ⟨_, hw⟩
    · exact hfile 0 e path action rest he
    · exact absurd hw (by simp [WellFormed])
  | succ h ih =>
    intro e path action rest he
    rcases he with he | ⟨hd, hw⟩
    · exact hfile _ e path action rest he
    · rw [WellFormed_succ] at hw
      obtain ⟨children, hg, hs, hall⟩ := hw
      rw [expansion_dir db h e path action children hd hg, actionsAt_cons, actionsAt_flatMap]
      cases rest with
      | nil =>
        simp [filepathJoin, resolveEntry, hd, resolve]
        intro c _
        apply expansion_actions_other
        intro rest hh
        have := congrArg List.length hh
        simp at this
      | cons name rest =>
        have hhead : ¬ filepathJoin path e.Name = path ++ e.Name :: name :: rest :=
          append_cons_ne_self path rest e.Name name
        have hq : path ++ e.Name :: name :: rest = filepathJoin path e.Name ++ name :: rest := by
          simp [filepathJoin]
        rw [flatMap_eq_find DirEntry.Name name _ children (sorted_distinct _ hs)]
        · simp only [hhead, if_false, List.nil_append]
          have hres : resolveEntry db e (name :: rest) =
              match children.find? (fun c => c.Name = name) with
              | none => none
              | some c => resolveEntry db c rest := by
            simp only [resolveEntry, hd, if_true]
            exact resolve_cons db e.ID name rest children hg
          rw [hres]
          cases hf : children.find? (fun c => c.Name = name) with
          | none => simp
          | some c =>
            have hcn : c.Name = name := by simpa using List.find?_some hf
            have hc := hall c (List.mem_of_find?_eq_some hf)
            simp only
            rw [hq, ← hcn]
            exact ih c (filepathJoin path e.Name) action rest hc
        · intro c _ hcn
          apply expansion_actions_other
          intro r hh
          rw [hq] at hh
          have := List.append_cancel_left hh
          simp at this
          exact hcn this.1.symm

/-! ### What the change list of two directories holds for a path -/

theorem sameSpec_paths (db : MetaStore) (h : Nat) (recur : GoString → GoString → Path → List Change)
    (hrec : ∀ a b p c, c ∈ recur a b p → ∃ name rest, c.Path = p ++ name :: rest)
    (path : Path) (o e : DirEntry) (hname : o.Name = e.Name) (c : Change)
    (hc : c ∈ sameSpec db h recur path o e) : ∃ rest, c.Path = path ++ o.Name :: rest := by
  unfold sameSpec at hc
  by_cases hk : o.Kind = e.Kind
  · simp only [ne_eq, hk, not_true_eq_false, if_false] at hc
    by_cases hid : o.ID = e.ID
    · simp [hid] at hc
    · simp only [hid, not_false_eq_true, if_true] at hc
      by_cases hf : e.Kind = str "file"
      · simp only [hf, if_true, List.mem_singleton] at hc
        exact ⟨[], by simp [hc, filepathJoin]⟩
      · by_cases hd : e.Kind = str "dir"
        · simp only [hf, hd, if_true, if_false] at hc
          obtain ⟨name, rest, hr⟩ := hrec _ _ _ _ hc
          exact ⟨name :: rest, by simp [hr, filepathJoin]⟩
        · simp [hf, hd] at hc
  · simp only [ne_eq, hk, not_false_eq_true, if_true, List.mem_append] at hc
    rcases hc with hc | hc
    · obtain ⟨rest, hr, _⟩ := expansion_paths db h o path _ c hc
      exact ⟨rest, hr⟩
    · obtain ⟨rest, hr, _⟩ := expansion_paths db h e path _ c hc
      exact ⟨rest, hname ▸ hr⟩

theorem stepChanges_paths (db : MetaStore) (h : Nat)
    (recur : GoString → GoString → Path → List Change)
    (hrec : ∀ a b p c, c ∈ recur a b p → ∃ name rest, c.Path = p ++ name :: rest)
    (path : Path) (olds news : List DirEntry) (a : Aligned) (ha : a ∈ align olds news)
    (c : Change) (hc : c ∈ stepChanges db h recur path a) :
    ∃ rest, c.Path = path ++ a.name :: rest := by
  rcases align_mem olds news a ha with ⟨x, _, rfl⟩ | ⟨x, _, rfl⟩ | ⟨x, _, y, _, rfl, hxy⟩
  · obtain ⟨rest, hr, _⟩ := expansion_paths db h x path _ c hc
    exact ⟨rest, hr⟩
  · obtain ⟨rest, hr, _⟩ := expansion_paths db h x path _ c hc
    exact ⟨rest, hr⟩
  · exact sameSpec_paths db h recur hrec path x y hxy c hc

theorem diffSpec_paths (db : MetaStore) : ∀ (h : Nat) (a b : GoString) (p : Path) (c : Change),
    c ∈ diffSpec db h a b p → ∃ name rest, c.Path = p ++ name :: rest := by
  intro h
  induction h with
  | zero => intro a b p c hc; simp [diffSpec] at hc
  | succ h ih =>
    intro a b p c hc
    unfold diffSpec at hc
    by_cases hab : a = b
    · simp [hab] at hc
    · simp only [hab, if_false] at hc
      cases hga : db.GetDirEntries a with
      | error e => simp [hga] at hc
      | ok olds =>
        cases hgb : db.GetDirEntries b with
        | error e => simp [hga, hgb] at hc
        | ok news =>
          simp only [hga, hgb, List.mem_flatMap] at hc
          obtain ⟨x, hx, hc⟩ := hc
          obtain ⟨rest, hr⟩ := stepChanges_paths db h (diffSpec db h) ih p olds news x hx c hc
          exact ⟨x.name, rest, hr⟩

theorem expectedActions_self (x : Option (GoString × GoString)) : expectedActions x x = [] := by
  cases x with
  | none => rfl
  | some v => obtain ⟨k, i⟩ := v; simp [expectedActions]

theorem expectedActions_none_right (x : Option (GoString × GoString)) :
    expectedActions x none = if x.isSome then [str "REMOVED"] else [] := by
  cases x <;> rfl

theorem expectedActions_none_left (x : Option (GoString × GoString)) :
    expectedActions none x = if x.isSome then [str "ADDED"] else [] := by
  cases x <;> rfl

theorem resolveEntry_congr (db : MetaStore) (o e : DirEntry) (hk : o.Kind = e.Kind)
    (hid : o.ID = e.ID) (rest : Path) : resolveEntry db o rest = resolveEntry db e rest := by
  simp [resolveEntry, hk, hid]

theorem sameSpec_actions (db : MetaStore) (h : Nat)
    (ih : ∀ (a b : GoString) (path p : Path), WellFormed db h a → WellFormed db h b →
      actionsAt (path ++ p) (diffSpec db h a b path) =
        expectedActions (resolve db a p) (resolve db b p))
    (path : Path) (o e : DirEntry) (hname : o.Name = e.Name) (ho : EntryOK db h o)
    (he : EntryOK db h e) (rest : Path) :
    actionsAt (path ++ o.Name :: rest) (sameSpec db h (diffSpec db h) path o e) =
      expectedActions (resolveEntry db o rest) (resolveEntry db e rest) := by
  have hdf : str "dir" ≠ str "file" := fun hh => file_ne_dir hh.symm
  unfold sameSpec
  by_cases hk : o.Kind = e.Kind
  · simp only [ne_eq, hk, not_true_eq_false, if_false]
    by_cases hid : o.ID = e.ID
    · rw [resolveEntry_congr db o e hk hid, expectedActions_self]
      simp [hid, actionsAt_nil]
    · simp only [hid, not_false_eq_true, if_true]
      rcases he with he | ⟨hd, hw⟩
      · have hof : o.Kind = str "file" := hk.trans he
        simp only [he, if_true]
        cases rest with
        | nil =>
          simp [actionsAt_cons, actionsAt_nil, filepathJoin, resolveEntry, he, hof, file_ne_dir,
            expectedActions, hid]
        | cons name rest =>
          rw [resolveEntry_file db o name rest hof, resolveEntry_file db e name rest he]
          simp [actionsAt_cons, actionsAt_nil, filepathJoin, expectedActions]
      · have hod : o.Kind = str "dir" := hk.trans hd
        have hwo : WellFormed db h o.ID := by
          rcases ho with ho | ⟨_, hwo⟩
          · exact absurd (ho.symm.trans hod) file_ne_dir
          · exact hwo
        simp only [hd, hdf, if_true, if_false]
        have hq : path ++ o.Name :: rest = filepathJoin path o.Name ++ rest := by
          simp [filepathJoin]
        rw [hq, ih o.ID e.ID (filepathJoin path o.Name) rest hwo hw]
        simp [resolveEntry, hod, hd]
  · simp only [ne_eq, hk, not_false_eq_true, if_true, actionsAt_append]
    rw [expansion_actions db h o path _ rest ho]
    have h2 := expansion_actions db h e path (str "ADDED") rest he
    rw [← hname] at h2
    rw [h2]
    cases rest with
    | nil =>
      rw [resolveEntry_nil db h o ho, resolveEntry_nil db h e he]
      simp [expectedActions, hk]
    | cons name rest =>
      rcases ho with ho | ⟨hod, _⟩
      · rw [resolveEntry_file db o name rest ho, expectedActions_none_left]
        simp
      · rcases he with he | ⟨hed, _⟩
        · rw [resolveEntry_file db e name rest he, expectedActions_none_right]
          simp
        · exact absurd (hod.trans hed.symm) hk

theorem diffSpec_actions (db : MetaStore) : ∀ (h : Nat) (a b : GoString) (path p : Path),
    WellFormed db h a → WellFormed db h b →
    actionsAt (path ++ p) (diffSpec db h a b path) =
      expectedActions (resolve db a p) (resolve db b p) := by
  have hdf : str "dir" ≠ str "file" := fun hh => file_ne_dir hh.symm
  intro h
  induction h with
  | zero => intro a b path p hw; exact absurd hw (by simp [WellFormed])
  | succ h ih =>
    intro a b path p hwa hwb
    by_cases hab : a = b
    · subst hab
      rw [expectedActions_self]
      simp [diffSpec, actionsAt_nil]
    · rw [WellFormed_succ] at hwa hwb
      obtain ⟨olds, hga, hso, halla⟩ := hwa
      obtain ⟨news, hgb, hsn, hallb⟩ := hwb
      have hspec : diffSpec db (h + 1) a b path =
          (align olds news).flatMap (stepChanges db h (diffSpec db h) path) := by
        simp [diffSpec, hab, hga, hgb]
      rw [hspec]
      cases p with
      | nil =>
        rw [actionsAt_eq_nil]
        · simp [resolve, expectedActions, hdf]
        · intro c hc hcp
          rw [List.mem_flatMap] at hc
          obtain ⟨x, hx, hc⟩ := hc
          obtain ⟨rest, hr⟩ :=
            stepChanges_paths db h (diffSpec db h) (diffSpec_paths db h) path olds news x hx c hc
          rw [hcp] at hr
          have := congrArg List.length hr
          simp at this
      | cons name rest =>
        rw [actionsAt_flatMap,
          flatMap_eq_find Aligned.name name _ (align olds news)
            ((align_sorted olds news hso hsn).imp (fun hxy => ne_of_lt hxy)),
          align_find name olds news hso hsn,
          resolve_cons db a name rest olds hga, resolve_cons db b name rest news hgb]
        · cases hfo : olds.find? (fun e => e.Name = name) with
          | none =>
            cases hfn : news.find? (fun e => e.Name = name) with
            | none => rfl
            | some e =>
              have hen : e.Name = name := by simpa using List.find?_some hfn
              have he := hallb e (List.mem_of_find?_eq_some hfn)
              simp only [pairUp, stepChanges]
              rw [← hen, expansion_actions db h e path _ rest he, expectedActions_none_left]
          | some o =>
            have hon : o.Name = name := by simpa using List.find?_some hfo
            have ho := halla o (List.mem_of_find?_eq_some hfo)
            cases hfn : news.find? (fun e => e.Name = name) with
            | none =>
              simp only [pairUp, stepChanges]
              rw [← hon, expansion_actions db h o path _ rest ho, expectedActions_none_right]
            | some e =>
              have hen : e.Name = name := by simpa using List.find?_some hfn
              have he := hallb e (List.mem_of_find?_eq_some hfn)
              simp only [pairUp, stepChanges]
              rw [← hon]
              exact sameSpec_actions db h ih path o e (hon.trans hen.symm) ho he rest
        · intro x hx hxn
          apply actionsAt_eq_nil
          intro c hc hcp
          obtain ⟨r, hr⟩ :=
            stepChanges_paths db h (diffSpec db h) (diffSpec_paths db h) path olds news x hx c hc
          rw [hcp] at hr
          have := List.append_cancel_left hr
          simp at this
          exact hxn this.1.symm

theorem checkWellFormed_sound (db : MetaStore) : ∀ (h : Nat) (id : GoString),
    checkWellFormed db h id = true → WellFormed db h id := by
  intro h
  induction h with
  | zero => intro id hc; simp [checkWellFormed] at hc
  | succ h ih =>
    intro id hc
    unfold checkWellFormed at hc
    unfold WellFormed
    cases hg : db.GetDirEntries id with
    | error e => simp [hg] at hc
    | ok entries =>
      simp only [hg, Bool.and_eq_true, decide_eq_true_eq, List.all_eq_true, Bool.or_eq_true] at hc
      refine ⟨hc.1, fun e he => ?_⟩
      rcases hc.2 e he with hf | ⟨hd, hw⟩
      · exact Or.inl hf
      · exact Or.inr ⟨hd, ih _ hw⟩

/-! ### Names that are single path components -/

theorem validName_ne_nil (name : GoString) (h : validName name = true) : name ≠ [] := by
  simp only [validName, Bool.and_eq_true, decide_eq_true_eq] at h
  exact h.1.1.1

theorem validName_no_separator (name : GoString) (h : validName name = true) : 47 ∉ name := by
  simp only [validName, Bool.and_eq_true, decide_eq_true_eq] at h
  exact h.1.1.2

theorem renderPath_eq_nil (p : Path) (hp : ∀ name ∈ p, validName name = true)
    (h : renderPath p = []) : p = [] := by
  cases p with
  | nil => rfl
  | cons a rest =>
    exfalso
    have ha := validName_ne_nil a (hp a (List.mem_cons_self _ _))
    cases rest with
    | nil =>
      apply ha
      simpa [renderPath, List.intercalate, List.intersperse] using h
    | cons b rest2 =>
      simp [renderPath, List.intercalate, List.intersperse] at h

/-- Rendering is injective on paths whose components are single path
components: two such paths with the same Go string are the same path. -/
theorem renderPath_injective (p q : Path) (hp : ∀ name ∈ p, validName name = true)
    (hq : ∀ name ∈ q, validName name = true) (h : renderPath p = renderPath q) : p = q := by
  by_cases hpn : p = []
  · subst hpn
    exact (renderPath_eq_nil q hq h.symm).symm
  · by_cases hqn : q = []
    · subst hqn
      exact renderPath_eq_nil p hp h
    · have h1 := List.splitOn_intercalate p 47 (fun l hl => validName_no_separator l (hp l hl)) hpn
      have h2 := List.splitOn_intercalate q 47 (fun l hl => validName_no_separator l (hq l hl)) hqn
      unfold renderPath at h
      rw [h, h2] at h1
      exact h1.symm

theorem namesValid_succ (db : MetaStore) (h : Nat) (id : GoString) (entries : List DirEntry)
    (hv : namesValid db (h + 1) id = true) (hg : db.GetDirEntries id = .ok entries) :
    ∀ e ∈ entries, validName e.Name = true ∧ (e.Kind = str "dir" → namesValid db h e.ID = true) := by
  intro e he
  unfold namesValid at hv
  simp only [hg, List.all_eq_true, Bool.and_eq_true, Bool.or_eq_true, decide_eq_true_eq] at hv
  refine ⟨(hv e he).1, fun hd => ?_⟩
  rcases (hv e he).2 with h1 | h1
  · exact absurd hd h1
  · exact h1

theorem validPath_join (path : Path) (name : GoString)
    (hp : ∀ x ∈ path, validName x = true) (hn : validName name = true) :
    ∀ x ∈ filepathJoin path name, validName x = true := by
  intro x hx
  simp only [filepathJoin, List.mem_append, List.mem_singleton] at hx
  rcases hx with hx | hx
  · exact hp x hx
  · rw [hx]; exact hn

theorem descendants_valid (db : MetaStore) : ∀ (h : Nat) (id : GoString) (dirPath q : Path),
    q ∈ descendants db h id dirPath → namesValid db h id = true →
    (∀ x ∈ dirPath, validName x = true) → ∀ x ∈ q, validName x = true := by
  intro h
  induction h with
  | zero => intro id dirPath q hq; simp [descendants] at hq
  | succ h ih =>
    intro id dirPath q hq hv hp
    unfold descendants at hq
    cases hg : db.GetDirEntries id with
    | error e => simp [hg] at hq
    | ok children =>
      simp only [hg, List.mem_flatMap, List.mem_cons] at hq
      obtain ⟨c, hc, hq⟩ := hq
      obtain ⟨hcn, hcd⟩ := namesValid_succ db h id children hv hg c hc
      have hj := validPath_join dirPath c.Name hp hcn
      rcases hq with hq | hq
      · rw [hq]; exact hj
      · by_cases hd : c.Kind = str "dir"
        · simp only [hd, if_true] at hq
          exact ih c.ID _ q hq (hcd hd) hj
        · simp [hd] at hq

theorem expansion_valid (db : MetaStore) (h : Nat) (e : DirEntry) (path : Path) (action : GoString)
    (c : Change) (hc : c ∈ expansion db h e path action) (hn : validName e.Name = true)
    (hd : e.Kind = str "dir" → namesValid db h e.ID = true)
    (hp : ∀ x ∈ path, validName x = true) : ∀ x ∈ c.Path, validName x = true := by
  unfold expansion at hc
  simp only [List.map_cons, List.mem_cons, List.mem_map] at hc
  have hj := validPath_join path e.Name hp hn
  rcases hc with hc | ⟨q, hq, hc⟩
  · rw [hc]; exact hj
  · rw [← hc]
    by_cases hk : e.Kind = str "dir"
    · simp only [hk, if_true] at hq
      exact descendants_valid db h e.ID _ q hq (hd hk) hj
    · simp [hk] at hq

theorem diffSpec_valid (db : MetaStore) : ∀ (h : Nat) (a b : GoString) (path : Path) (c : Change),
    c ∈ diffSpec db h a b path → namesValid db h a = true → namesValid db h b = true →
    (∀ x ∈ path, validName x = true) → ∀ x ∈ c.Path, validName x = true := by
  intro h
  induction h with
  | zero => intro a b path c hc; simp [diffSpec] at hc
  | succ h ih =>
    intro a b path c hc hva hvb hp
    unfold diffSpec at hc
    by_cases hab : a = b
    · simp [hab] at hc
    · simp only [hab, if_false] at hc
      cases hga : db.GetDirEntries a with
      | error e => simp [hga] at hc
      | ok olds =>
        cases hgb : db.GetDirEntries b with
        | error e => simp [hga, hgb] at hc
        | ok news =>
          simp only [hga, hgb, List.mem_flatMap] at hc
          obtain ⟨al, hal, hc⟩ := hc
          have hvo := namesValid_succ db h a olds hva hga
          have hvn := namesValid_succ db h b news hvb hgb
          rcases align_mem olds news al hal with ⟨o, ho, rfl⟩ | ⟨e, he, rfl⟩ | ⟨o, ho, e, he, rfl, _⟩
          · exact expansion_valid db h o path _ c hc (hvo o ho).1 (hvo o ho).2 hp
          · exact expansion_valid db h e path _ c hc (hvn e he).1 (hvn e he).2 hp
          · have hc : c ∈ sameSpec db h (diffSpec db h) path o e := hc
            unfold sameSpec at hc
            by_cases hk : o.Kind ≠ e.Kind
            · rw [if_pos hk, List.mem_append] at hc
              rcases hc with hc | hc
              · exact expansion_valid db h o path _ c hc (hvo o ho).1 (hvo o ho).2 hp
              · exact expansion_valid db h e path _ c hc (hvn e he).1 (hvn e he).2 hp
            · rw [if_neg hk] at hc
              have hk2 : o.Kind = e.Kind := not_not.mp hk
              by_cases hid : o.ID ≠ e.ID
              · rw [if_pos hid] at hc
                by_cases hf : o.Kind = str "file"
                · rw [if_pos hf, List.mem_singleton] at hc
                  rw [hc]
                  exact validPath_join path o.Name hp (hvo o ho).1
                · rw [if_neg hf] at hc
                  by_cases hd : o.Kind = str "dir"
                  · rw [if_pos hd] at hc
                    exact ih o.ID e.ID _ c hc ((hvo o ho).2 hd) ((hvn e he).2 (hk2 ▸ hd))
                      (validPath_join path o.Name hp (hvo o ho).1)
                  · rw [if_neg hd] at hc
                    cases hc
              · rw [if_neg hid] at hc
                cases hc

theorem actionsAtString_render (p : Path) (changes : List Change)
    (hc : ∀ c ∈ changes, ∀ x ∈ c.Path, validName x = true)
    (hp : ∀ x ∈ p, validName x = true) :
    actionsAtString (renderPath p) changes = actionsAt p changes := by
  unfold actionsAtString actionsAt
  congr 1
  apply List.filter_congr
  intro c hcm
  by_cases h : c.Path = p
  · simp [h]
  · have h2 : renderPath c.Path ≠ renderPath p :=
      fun hr => h (renderPath_injective c.Path p (hc c hcm) hp hr)
    simp [h, h2]

/-- C2, as stated, fails: the path x is a file in the old tree and a directory
in the new one, so its file content differs between the trees, yet the change
list holds x twice (REMOVED, then ADDED), not exactly once. -/
theorem diff_kind_change_listed_twice :
    diff kindChangeStore 2 (str "kcOld") (str "kcNew") [] 0 =
      .ok ([⟨[str "x"], str "REMOVED"⟩, ⟨[str "x"], str "ADDED"⟩], 3) ∧
    WellFormed kindChangeStore 2 (str "kcOld") ∧ WellFormed kindChangeStore 2 (str "kcNew") ∧
    resolve kindChangeStore (str "kcOld") [str "x"] = some (str "file", str "f1") ∧
    resolve kindChangeStore (str "kcNew") [str "x"] = some (str "dir", str "d1") ∧
    (([⟨[str "x"], str "REMOVED"⟩, ⟨[str "x"], str "ADDED"⟩] : List Change).filter
      (fun c => c.Path = [str "x"])).length = 2 :=
  ⟨by decide, checkWellFormed_sound _ _ _ (by decide), checkWellFormed_sound _ _ _ (by decide),
    by decide, by decide, by decide⟩

/-- C2, amended. In a store where the trees under both roots are present,
strictly sorted by name, of kinds file and dir only, and named by single path
components (the names a directory listing can hold), diff (given a depth
budget of at least their height) returns a change list whose paths are made
of those names, and for every such path p the actions the list holds for the
path string of p are exactly: REMOVED when p exists only in the old tree,
ADDED when p exists only in the new tree, MODIFIED when p is a file in both
with different ids, REMOVED followed by ADDED when the kind of p differs
between the trees, and nothing when p is unchanged or a directory in both. -/
theorem diff_sound (db : MetaStore) (h fuel : Nat) (oldrootID newrootID : GoString) (n : Nat)
    (hold : WellFormed db h oldrootID) (hnew : WellFormed db h newrootID)
    (hnamesOld : namesValid db h oldrootID = true) (hnamesNew : namesValid db h newrootID = true)
    (hfuel : h ≤ fuel) :
    ∃ changes n1, diff db fuel oldrootID newrootID [] n = .ok (changes, n1) ∧
      (∀ c ∈ changes, ∀ name ∈ c.Path, validName name = true) ∧
      ∀ p : Path, (∀ name ∈ p, validName name = true) →
        actionsAtString (renderPath p) changes =
          expectedActions (resolve db oldrootID p) (resolve db newrootID p) := by
  obtain ⟨n1, h1⟩ := diff_ok db h fuel hfuel oldrootID newrootID [] n hold hnew
  have hvalid : ∀ c ∈ diffSpec db h oldrootID newrootID [], ∀ name ∈ c.Path, validName name = true :=
    fun c hc => diffSpec_valid db h oldrootID newrootID [] c hc hnamesOld hnamesNew
      (fun x hx => by cases hx)
  refine ⟨_, n1, h1, hvalid, fun p hp => ?_⟩
  rw [actionsAtString_render p _ hvalid hp]
  have := diffSpec_actions db h oldrootID newrootID [] p hold hnew
  simpa using this

/-- C2, amended, at the two roots of twoRootsStore. -/
theorem diff_sound_witness :
    ∃ changes n1, diff twoRootsStore 3 (str "old") (str "new") [] 0 = .ok (changes, n1) ∧
      actionsAtString (str "u") changes = [] ∧
      actionsAtString (str "w") changes = [] ∧
      actionsAtString (str "w/k") changes = [str "MODIFIED"] ∧
      actionsAtString (str "x") changes = [str "REMOVED", str "ADDED"] ∧
      actionsAtString (str "x/a") changes = [str "ADDED"] ∧
      actionsAtString (str "y/b/c") changes = [str "REMOVED"] ∧
      actionsAtString (str "z") changes = [str "ADDED"] := by
  obtain ⟨changes, n1, h1, _, h2⟩ := diff_sound twoRootsStore 3 3 (str "old") (str "new") 0
    (checkWellFormed_sound _ _ _ (by decide)) (checkWellFormed_sound _ _ _ (by decide))
    (by decide) (by decide) (le_refl 3)
  refine ⟨changes, n1, h1, ?_, ?_, ?_, ?_, ?_, ?_, ?_⟩
  · rw [show str "u" = renderPath [str "u"] by decide, h2 _ (by decide)]; decide
  · rw [show str "w" = renderPath [str "w"] by decide, h2 _ (by decide)]; decide
  · rw [show str "w/k" = renderPath [str "w", str "k"] by decide, h2 _ (by decide)]; decide
  · rw [show str "x" = renderPath [str "x"] by decide, h2 _ (by decide)]; decide
  · rw [show str "x/a" = renderPath [str "x", str "a"] by decide, h2 _ (by decide)]; decide
  · rw [show str "y/b/c" = renderPath [str "y", str "b", str "c"] by decide, h2 _ (by decide)]; decide
  · rw [show str "z" = renderPath [str "z"] by decide, h2 _ (by decide)]; decide

/-- C6. In a store where the trees under both roots are present and sorted,
whenever the old and the new manifest hold entries of the same name and of
different kinds, the change list diff returns contains, as one contiguous
block, the expansion of the old entry under REMOVED followed by the expansion
of the new entry under ADDED; the expansion of an entry is one change for the
entry itself followed, for a directory, by one change for every descendant in
pre-order, so that it holds exactly one change for the entry and for every
path that exists below it. So a directory replaced by a file of the same name
yields REMOVED for the directory and all its descendants, then one ADDED for
the file. -/
theorem diff_kind_change (db : MetaStore) (h fuel : Nat) (oldrootID newrootID : GoString)
    (path : Path) (n : Nat) (olds news : List DirEntry) (o e : DirEntry)
    (hold : WellFormed db (h + 1) oldrootID) (hnew : WellFormed db (h + 1) newrootID)
    (hfuel : h + 1 ≤ fuel)
    (hgo : db.GetDirEntries oldrootID = .ok olds) (hgn : db.GetDirEntries newrootID = .ok news)
    (ho : o ∈ olds) (he : e ∈ news) (hname : o.Name = e.Name) (hkind : o.Kind ≠ e.Kind) :
    (∃ before after n1, diff db fuel oldrootID newrootID path n =
      .ok (before ++ (expansion db h o path (str "REMOVED") ++
        expansion db h e path (str "ADDED")) ++ after, n1)) ∧
    (o.Kind = str "dir" → e.Kind = str "file" →
      expansion db h o path (str "REMOVED") ++ expansion db h e path (str "ADDED") =
        (filepathJoin path o.Name :: descendants db h o.ID (filepathJoin path o.Name)).map
          (fun p => ⟨p, str "REMOVED"⟩) ++ [⟨filepathJoin path o.Name, str "ADDED"⟩]) ∧
    (∀ rest, actionsAt (path ++ o.Name :: rest) (expansion db h o path (str "REMOVED")) =
      if (resolveEntry db o rest).isSome then [str "REMOVED"] else []) ∧
    (∀ rest, actionsAt (path ++ e.Name :: rest) (expansion db h e path (str "ADDED")) =
      if (resolveEntry db e rest).isSome then [str "ADDED"] else []) := by
  have hold2 := (WellFormed_succ db h oldrootID).mp hold
  have hnew2 := (WellFormed_succ db h newrootID).mp hnew
  obtain ⟨olds2, hga2, hso2, hallo⟩ := hold2
  obtain ⟨news2, hgb2, hsn2, halln⟩ := hnew2
  rw [hgo] at hga2
  rw [hgn] at hgb2
  cases hga2
  cases hgb2
  have hne : oldrootID ≠ newrootID := by
    intro hh
    have heq : news = olds := by
      rw [hh, hgn] at hgo
      exact Except.ok.inj hgo
    rw [heq] at he
    have h1 := find_of_mem_sorted olds hso2 o ho
    have h2 := find_of_mem_sorted olds hso2 e he
    rw [hname, h2] at h1
    cases h1
    exact hkind rfl
  refine ⟨?_, ?_, fun rest => expansion_actions db h o path _ rest (hallo o ho),
    fun rest => expansion_actions db h e path _ rest (halln e he)⟩
  · obtain ⟨n1, h1⟩ := diff_ok db (h + 1) fuel hfuel oldrootID newrootID path n hold hnew
    rw [WellFormed_succ] at hold hnew
    obtain ⟨olds1, hga, hso, _⟩ := hold
    obtain ⟨news1, hgb, hsn, _⟩ := hnew
    rw [hgo] at hga
    rw [hgn] at hgb
    cases hga
    cases hgb
    have hmem : Aligned.both o e ∈ align olds news := by
      apply List.mem_of_find?_eq_some (p := fun a => a.name = o.Name)
      rw [align_find o.Name olds news hso hsn, find_of_mem_sorted olds hso o ho, hname,
        find_of_mem_sorted news hsn e he]
      rfl
    obtain ⟨s, t, hst⟩ := List.append_of_mem hmem
    refine ⟨s.flatMap (stepChanges db h (diffSpec db h) path),
      t.flatMap (stepChanges db h (diffSpec db h) path), n1, ?_⟩
    rw [h1]
    simp only [diffSpec, hne, if_false, hgo, hgn, hst, List.flatMap_append, List.flatMap_cons,
      stepChanges, sameSpec, ne_eq, hkind, not_false_eq_true, if_true, List.append_assoc]
  · intro hd hf
    rw [expansion_file db h e path _ hf, hname]
    simp only [expansion, hd, if_true, hname]

/-- C6 at the entry y of twoRootsStore: a directory with three descendants
replaced by a file. -/
theorem diff_kind_change_witness :
    ∃ before after n1, diff twoRootsStore 3 (str "old") (str "new") [] 0 =
      .ok (before ++ ([⟨[str "y"], str "REMOVED"⟩, ⟨[str "y", str "a"], str "REMOVED"⟩,
          ⟨[str "y", str "b"], str "REMOVED"⟩, ⟨[str "y", str "b", str "c"], str "REMOVED"⟩] ++
        [⟨[str "y"], str "ADDED"⟩]) ++ after, n1) :=
  (diff_kind_change twoRootsStore 2 3 (str "old") (str "new") [] 0 _ _
    ⟨str "y", str "dir", str "d1"⟩ ⟨str "y", str "file", str "f2"⟩
    (checkWellFormed_sound _ _ _ (by decide)) (checkWellFormed_sound _ _ _ (by decide))
    (le_refl 3) rfl rfl (by decide) (by decide) rfl (by decide)).1

/-! ### Running the tree builder twice -/

theorem tableExtends_refl {κ ν : Type} [DecidableEq κ] (t : List (κ × ν)) : tableExtends t t :=
  fun _ _ h => h

theorem tableExtends_trans {κ ν : Type} [DecidableEq κ] {t u w : List (κ × ν)}
    (h1 : tableExtends t u) (h2 : tableExtends u w) : tableExtends t w :=
  fun k v h => h2 k v (h1 k v h)

theorem tableExtends_insertOrIgnore {κ ν : Type} [DecidableEq κ] (t : List (κ × ν)) (k : κ) (v : ν) :
    tableExtends t (insertOrIgnore t k v) :=
  fun k1 w h => tableGet_insertOrIgnore_mono t k k1 v w h

theorem insertOrIgnore_absorbed {κ ν : Type} [DecidableEq κ] (t u : List (κ × ν)) (k : κ) (v : ν)
    (h : tableExtends (insertOrIgnore t k v) u) : insertOrIgnore u k v = u :=
  insertOrIgnore_of_some u k v _ (h k _ (tableGet_insertOrIgnore_self t k v))

theorem Extends_refl (s : StoreState) : s.Extends s :=
  ⟨tableExtends_refl _, tableExtends_refl _, fun _ h => h, tableExtends_refl _⟩

theorem Extends_trans {s t u : StoreState} (h1 : s.Extends t) (h2 : t.Extends u) : s.Extends u :=
  ⟨tableExtends_trans h1.1 h2.1, tableExtends_trans h1.2.1 h2.2.1,
    fun d hd => h2.2.2.1 d (h1.2.2.1 d hd), tableExtends_trans h1.2.2.2 h2.2.2.2⟩

theorem Absorbed_bind {α β : Type} (f : StoreState → Except Err (α × StoreState))
    (g : α → StoreState → Except Err (β × StoreState))
    (hf : Absorbed f) (hg : ∀ a, Absorbed (g a)) :
    Absorbed (fun s => match f s with
      | .error err => .error err
      | .ok (a, s1) => g a s1) := by
  intro s b s2 h
  cases hfs : f s with
  | error e => simp [hfs] at h
  | ok r =>
    obtain ⟨a, s1⟩ := r
    simp only [hfs] at h
    obtain ⟨he1, ha1⟩ := hf s a s1 hfs
    obtain ⟨he2, ha2⟩ := hg a s1 b s2 h
    refine ⟨Extends_trans he1 he2, fun s3 h3 => ?_⟩
    simp only [ha1 s3 (Extends_trans he2 h3), ha2 s3 h3]

theorem SaveMetadata_absorbed (id objType : GoString) (data : Bytes) :
    Absorbed (fun s => match s.SaveMetadata id objType data with
      | .error err => .error err
      | .ok s1 => .ok ((), s1)) := by
  intro s a s1 h
  simp only [StoreState.SaveMetadata, SQLStore.SaveMetadata, Except.ok.injEq, Prod.mk.injEq,
    true_and] at h
  subst h
  refine ⟨⟨tableExtends_refl _, tableExtends_insertOrIgnore _ _ _, fun _ hd => hd,
    tableExtends_refl _⟩, fun s2 h2 => ?_⟩
  simp only [StoreState.SaveMetadata, SQLStore.SaveMetadata,
    insertOrIgnore_absorbed s.sql.metadata s2.sql.metadata (id, objType) data h2.2.1]

theorem healthyDisk_MkdirAll_of_mem (d : Disk) (path : GoString) (h : path ∈ d.dirs) :
    healthyDisk.MkdirAll d path = (none, d) := by
  simp [healthyDisk, h]

theorem healthyDisk_MkdirAll_ok (d d1 : Disk) (path : GoString)
    (h : healthyDisk.MkdirAll d path = (none, d1)) :
    path ∈ d1.dirs ∧ (∀ x ∈ d.dirs, x ∈ d1.dirs) ∧ d1.files = d.files := by
  simp only [healthyDisk] at h
  by_cases h1 : path ∈ d.dirs
  · simp only [h1, if_true, Prod.mk.injEq, true_and] at h
    subst h
    exact ⟨h1, fun _ hx => hx, rfl⟩
  · by_cases h2 : (tableGet d.files path).isSome = true
    · simp [h1, h2] at h
    · simp only [h1, h2, if_false, Bool.false_eq_true, Prod.mk.injEq, true_and] at h
      subst h
      exact ⟨by simp, fun x hx => by simp [hx], rfl⟩

theorem healthyDisk_Stat_none (d : Disk) (path : GoString) :
    healthyDisk.Stat d path = none ↔ (path ∈ d.dirs ∨ (tableGet d.files path).isSome = true) := by
  simp only [healthyDisk]
  by_cases h : path ∈ d.dirs ∨ (tableGet d.files path).isSome = true
  · simp [h]
  · simp [h]

theorem healthyDisk_WriteFile (d : Disk) (path : GoString) (data : Bytes) (h : path ∉ d.dirs) :
    healthyDisk.WriteFile d path data = (none, { d with files := (path, data) :: d.files }) := by
  simp [healthyDisk, h]

/-- On a healthy disk a SaveBlock that has succeeded only added to the disk,
and on every later disk it succeeds again and changes nothing. -/
theorem DiskBlockStore_SaveBlock_absorbed (basePath : GoString) (d d1 : Disk) (id : GoString)
    (data : Bytes) (h : DiskBlockStore.SaveBlock healthyDisk basePath d id data = (none, d1)) :
    ((∀ x ∈ d.dirs, x ∈ d1.dirs) ∧ tableExtends d.files d1.files) ∧
    ∀ d2 : Disk, (∀ x ∈ d1.dirs, x ∈ d2.dirs) → tableExtends d1.files d2.files →
      DiskBlockStore.SaveBlock healthyDisk basePath d2 id data = (none, d2) := by
  unfold DiskBlockStore.SaveBlock at h
  by_cases hlen : id.length < 2
  · simp [hlen] at h
  · have hlen2 : 2 ≤ id.length := by omega
    simp only [hlen, if_false, sliceTo, sliceFrom, hlen2, if_true] at h
    cases hm : healthyDisk.MkdirAll d (healthyDisk.Join [basePath, id.take 2]) with
    | mk e dm =>
      cases e with
      | some err => simp [hm] at h
      | none =>
        simp only [hm] at h
        obtain ⟨hP, hdirs, hfiles⟩ := healthyDisk_MkdirAll_ok _ _ _ hm
        cases hs : healthyDisk.Stat dm
            (healthyDisk.Join [healthyDisk.Join [basePath, id.take 2], id.drop 2]) with
        | none =>
          simp only [hs, Prod.mk.injEq, true_and] at h
          subst h
          refine ⟨⟨hdirs, by rw [hfiles]; exact tableExtends_refl _⟩, fun d2 hd2 hf2 => ?_⟩
          have hs2 : healthyDisk.Stat d2
              (healthyDisk.Join [healthyDisk.Join [basePath, id.take 2], id.drop 2]) = none := by
            rw [healthyDisk_Stat_none] at hs ⊢
            rcases hs with hs | hs
            · exact Or.inl (hd2 _ hs)
            · rw [Option.isSome_iff_exists] at hs
              obtain ⟨v, hv⟩ := hs
              exact Or.inr (by rw [hf2 _ _ hv]; rfl)
          simp only [DiskBlockStore.SaveBlock, hlen, if_false, sliceTo, sliceFrom, hlen2, if_true,
            healthyDisk_MkdirAll_of_mem d2 _ (hd2 _ hP), hs2]
        | some err =>
          simp only [hs] at h
          have hnot : ¬ (healthyDisk.Join [healthyDisk.Join [basePath, id.take 2], id.drop 2] ∈ dm.dirs ∨
              (tableGet dm.files
                (healthyDisk.Join [healthyDisk.Join [basePath, id.take 2], id.drop 2])).isSome = true) := by
            rw [← healthyDisk_Stat_none, hs]
            simp
          rw [not_or] at hnot
          rw [healthyDisk_WriteFile _ _ _ hnot.1, Prod.mk.injEq] at h
          have h := h.2
          subst h
          refine ⟨⟨hdirs, ?_⟩, fun d2 hd2 hf2 => ?_⟩
          · intro k v hk
            rw [← hfiles] at hk
            show tableGet ((_, data) :: dm.files) k = some v
            unfold tableGet
            by_cases hkq : healthyDisk.Join [healthyDisk.Join [basePath, id.take 2], id.drop 2] = k
            · exfalso
              apply hnot.2
              rw [hkq, hk]
              rfl
            · simp only [hkq, if_false]
              exact hk
          · have hs2 : healthyDisk.Stat d2
                (healthyDisk.Join [healthyDisk.Join [basePath, id.take 2], id.drop 2]) = none := by
              rw [healthyDisk_Stat_none]
              refine Or.inr ?_
              have hget : tableGet ((healthyDisk.Join [healthyDisk.Join [basePath, id.take 2], id.drop 2],
                  data) :: dm.files)
                  (healthyDisk.Join [healthyDisk.Join [basePath, id.take 2], id.drop 2]) = some data := by
                simp [tableGet]
              rw [hf2 _ _ hget]
              rfl
            simp only [DiskBlockStore.SaveBlock, hlen, if_false, sliceTo, sliceFrom, hlen2, if_true,
              healthyDisk_MkdirAll_of_mem d2 _ (hd2 _ hP), hs2]

theorem SaveBlock_absorbed (backend : BlockBackend) (id : GoString) (data : Bytes) :
    Absorbed (fun s => match s.SaveBlock backend id data with
      | .error err => .error err
      | .ok s1 => .ok ((), s1)) := by
  intro s a s1 h
  cases backend with
  | sql =>
    simp only [StoreState.SaveBlock, SQLStore.SaveBlock, Except.ok.injEq, Prod.mk.injEq,
      true_and] at h
    subst h
    refine ⟨⟨tableExtends_insertOrIgnore _ _ _, tableExtends_refl _, fun _ hd => hd,
      tableExtends_refl _⟩, fun s2 h2 => ?_⟩
    simp only [StoreState.SaveBlock, SQLStore.SaveBlock,
      insertOrIgnore_absorbed s.sql.blocks s2.sql.blocks id data h2.1]
  | disk =>
    simp only [StoreState.SaveBlock] at h
    cases hsb : DiskBlockStore.SaveBlock healthyDisk (str "blocks") s.disk id data with
    | mk e d1 =>
      cases e with
      | some err => simp [hsb] at h
      | none =>
        simp only [hsb, Except.ok.injEq, Prod.mk.injEq, true_and] at h
        subst h
        obtain ⟨⟨hdirs, hfiles⟩, habs⟩ := DiskBlockStore_SaveBlock_absorbed _ _ _ _ _ hsb
        refine ⟨⟨tableExtends_refl _, tableExtends_refl _, hdirs, hfiles⟩, fun s2 h2 => ?_⟩
        simp only [StoreState.SaveBlock, habs s2.disk h2.2.2.1 h2.2.2.2]

theorem Absorbed_congr {α : Type} (f g : StoreState → Except Err (α × StoreState))
    (h : ∀ s, f s = g s) (hg : Absorbed g) : Absorbed f := by
  intro s a s1 hf
  rw [h s] at hf
  obtain ⟨h1, h2⟩ := hg s a s1 hf
  exact ⟨h1, fun s2 hs2 => by rw [h s2]; exact h2 s2 hs2⟩

theorem Absorbed_pure {α : Type} (a : α) : Absorbed (fun s => (.ok (a, s) : Except Err (α × StoreState))) := by
  intro s b s1 h
  simp only [Except.ok.injEq, Prod.mk.injEq] at h
  obtain ⟨rfl, rfl⟩ := h
  exact ⟨Extends_refl _, fun s2 _ => rfl⟩

theorem Absorbed_error {α : Type} (e : Err) :
    Absorbed (fun _ => (.error e : Except Err (α × StoreState))) := by
  intro s b s1 h
  cases h

theorem chunkLoop_absorbed (lib : Lib) (backend : BlockBackend) :
    ∀ (chunks : List Bytes) (blocks : List Block), Absorbed (chunkLoop lib backend chunks blocks) := by
  intro chunks
  induction chunks with
  | nil => intro blocks; exact Absorbed_pure blocks
  | cons c rest ih =>
    intro blocks
    apply Absorbed_congr _ _ _
      (Absorbed_bind _ (fun (_ : Unit) => chunkLoop lib backend rest
        (blocks ++ [⟨lib.sha256hex c, c.length⟩]))
        (SaveBlock_absorbed backend (lib.sha256hex c) c) (fun _ => ih _))
    intro s
    simp only [chunkLoop]
    cases s.SaveBlock backend (lib.sha256hex c) c <;> rfl

theorem saveAndReturn_absorbed {α : Type} (id objType : GoString) (data : Bytes) (a : α) :
    Absorbed (fun s => match s.SaveMetadata id objType data with
      | .error err => .error err
      | .ok s1 => .ok (a, s1)) := by
  apply Absorbed_congr _ _ _
    (Absorbed_bind _ (fun (_ : Unit) s => .ok (a, s)) (SaveMetadata_absorbed id objType data)
      (fun _ => Absorbed_pure a))
  intro s
  cases s.SaveMetadata id objType data <;> rfl

mutual
theorem ProcessDirectory_absorbed (lib : Lib) (backend : BlockBackend) :
    ∀ (node : FsNode), Absorbed (ProcessDirectory lib backend node)
  | .file _ => by
    apply Absorbed_congr _ _ _ (Absorbed_error .external)
    intro s
    simp only [ProcessDirectory]
  | .dir files => by
    apply Absorbed_congr _ _ _
      (Absorbed_bind (processFiles lib backend files [])
        (fun entries s1 => match CalculateDirID lib entries with
          | .error err => .error err
          | .ok (dirID, dirData) =>
            match s1.SaveMetadata dirID (str "dir") dirData with
            | .error err => .error err
            | .ok s2 => .ok (dirID, s2))
        (processFiles_absorbed lib backend files []) ?_)
    · intro s
      simp only [ProcessDirectory]
      cases processFiles lib backend files [] s <;> rfl
    · intro entries
      cases hc : CalculateDirID lib entries with
      | error e => exact Absorbed_congr _ _ (fun s => by simp only [hc]) (Absorbed_error e)
      | ok r =>
        obtain ⟨dirID, dirData⟩ := r
        exact Absorbed_congr _ _ (fun s => by simp only [hc])
          (saveAndReturn_absorbed dirID (str "dir") dirData dirID)
theorem processFiles_absorbed (lib : Lib) (backend : BlockBackend) :
    ∀ (files : List (GoString × FsNode)) (entries : List DirEntry),
      Absorbed (processFiles lib backend files entries)
  | [], entries => by
    apply Absorbed_congr _ _ _ (Absorbed_pure entries)
    intro s
    simp only [processFiles]
  | (name, .dir sub) :: rest, entries => by
    apply Absorbed_congr _ _ _
      (Absorbed_bind (ProcessDirectory lib backend (.dir sub))
        (fun childID => processFiles lib backend rest (entries ++ [⟨name, str "dir", childID⟩]))
        (ProcessDirectory_absorbed lib backend (.dir sub))
        (fun childID => processFiles_absorbed lib backend rest _))
    intro s
    simp only [processFiles]
    cases ProcessDirectory lib backend (.dir sub) s <;> rfl
  | (name, .file data) :: rest, entries => by
    apply Absorbed_congr _ _ _
      (Absorbed_bind (ChunkFile lib backend data)
        (fun blocks s1 => match CalculateFileID lib blocks with
          | .error err => .error err
          | .ok (childID, fileData) =>
            match s1.SaveMetadata childID (str "file") fileData with
            | .error err => .error err
            | .ok s2 => processFiles lib backend rest (entries ++ [⟨name, str "file", childID⟩]) s2)
        (chunkLoop_absorbed lib backend _ _) ?_)
    · intro s
      simp only [processFiles]
      cases ChunkFile lib backend data s <;> rfl
    · intro blocks
      cases hc : CalculateFileID lib blocks with
      | error e => exact Absorbed_congr _ _ (fun s => by simp only [hc]) (Absorbed_error e)
      | ok r =>
        obtain ⟨childID, fileData⟩ := r
        apply Absorbed_congr _ _ _
          (Absorbed_bind _ (fun (_ : Unit) => processFiles lib backend rest
            (entries ++ [⟨name, str "file", childID⟩]))
            (SaveMetadata_absorbed childID (str "file") fileData)
            (fun _ => processFiles_absorbed lib backend rest _))
        intro s
        simp only [hc]
        cases s.SaveMetadata childID (str "file") fileData <;> rfl
end

/-- C4. With either block store (the relational one or the one on disk), for
every tree and every store state: when ProcessDirectory succeeds and leaves
the store in state s1, a second ProcessDirectory of the same tree on s1
returns the same root id and leaves every table and the disk exactly as they
are in s1. -/
theorem ProcessDirectory_idempotent (lib : Lib) (backend : BlockBackend) (tree : FsNode)
    (s s1 : StoreState) (root : GoString)
    (hfirst : ProcessDirectory lib backend tree s = .ok (root, s1)) :
    ProcessDirectory lib backend tree s1 = .ok (root, s1) :=
  (ProcessDirectory_absorbed lib backend tree s root s1 hfirst).2 s1 (Extends_refl s1)

/-- C4 at the sample tree, on an empty store with the block store on disk. -/
theorem ProcessDirectory_idempotent_witness :
    ∃ root s1, ProcessDirectory refLib .disk sampleTree StoreState.empty = .ok (root, s1) ∧
      ProcessDirectory refLib .disk sampleTree s1 = .ok (root, s1) ∧
      s1.disk.files.length = 3 ∧ s1.sql.metadata.length = 6 :=
  ⟨_, _, rfl, ProcessDirectory_idempotent refLib .disk sampleTree StoreState.empty _ _ rfl,
    by decide, by decide⟩

/-! ### What the tree builder leaves in the store -/

theorem tableGet_mem {κ ν : Type} [DecidableEq κ] (t : List (κ × ν)) (k : κ) (v : ν)
    (h : tableGet t k = some v) : (k, v) ∈ t := by
  induction t with
  | nil => simp [tableGet] at h
  | cons row rest ih =>
    obtain ⟨k1, v1⟩ := row
    by_cases hk : k1 = k
    · simp only [tableGet, hk, if_true, Option.some.injEq] at h
      simp [hk, h]
    · simp only [tableGet, hk, if_false] at h
      exact List.mem_cons_of_mem _ (ih h)

theorem mem_insertOrIgnore {κ ν : Type} [DecidableEq κ] (t : List (κ × ν)) (k : κ) (v : ν)
    (row : κ × ν) (h : row ∈ insertOrIgnore t k v) : row ∈ t ∨ row = (k, v) := by
  unfold insertOrIgnore at h
  cases hg : tableGet t k with
  | some w => simp only [hg] at h; exact Or.inl h
  | none => simpa [hg] using h

theorem get_inserted {κ : Type} [DecidableEq κ] (lib : Lib) (xs : List Bytes)
    (hcf : CollisionFree lib xs) (idOf : κ → GoString) (t : List (κ × Bytes))
    (hrows : ∀ row ∈ t, idOf row.1 = lib.sha256hex row.2 ∧ row.2 ∈ xs)
    (k : κ) (a : Bytes) (ha : a ∈ xs) (hk : idOf k = lib.sha256hex a) :
    tableGet (insertOrIgnore t k a) k = some a := by
  rw [tableGet_insertOrIgnore_self]
  cases hg : tableGet t k with
  | none => rfl
  | some b =>
    obtain ⟨h1, h2⟩ := hrows (k, b) (tableGet_mem t k b hg)
    simp only [Option.getD_some, Option.some.injEq]
    exact hcf b h2 a ha (h1.symm.trans hk)

theorem rows_insertOrIgnore {κ : Type} [DecidableEq κ] (lib : Lib) (xs : List Bytes)
    (idOf : κ → GoString) (t : List (κ × Bytes))
    (hrows : ∀ row ∈ t, idOf row.1 = lib.sha256hex row.2 ∧ row.2 ∈ xs)
    (k : κ) (a : Bytes) (ha : a ∈ xs) (hk : idOf k = lib.sha256hex a) :
    ∀ row ∈ insertOrIgnore t k a, idOf row.1 = lib.sha256hex row.2 ∧ row.2 ∈ xs := by
  intro row hrow
  rcases mem_insertOrIgnore t k a row hrow with h | h
  · exact hrows row h
  · subst h
    exact ⟨hk, ha⟩

theorem GetBlock_mono (s t : StoreState) (h : s.Extends t) (id : GoString) (v : Bytes)
    (hg : s.sql.GetBlock id = .ok v) : t.sql.GetBlock id = .ok v := by
  unfold SQLStore.GetBlock at hg ⊢
  cases hs : tableGet s.sql.blocks id with
  | none => simp [hs] at hg
  | some w =>
    simp only [hs, Except.ok.injEq] at hg
    simp [h.1 id w hs, hg]

theorem GetFileBlocks_mono (lib : Lib) (s t : StoreState) (h : s.Extends t) (id : GoString)
    (v : List Block) (hg : s.sql.GetFileBlocks lib id = .ok v) :
    t.sql.GetFileBlocks lib id = .ok v := by
  unfold SQLStore.GetFileBlocks at hg ⊢
  cases hs : tableGet s.sql.metadata (id, str "file") with
  | none => simp [hs] at hg
  | some w =>
    simp only [hs] at hg
    simp only [h.2.1 _ w hs]
    exact hg

theorem GetDirEntries_mono (lib : Lib) (s t : StoreState) (h : s.Extends t) (id : GoString)
    (v : List DirEntry) (hg : s.sql.GetDirEntries lib id = .ok v) :
    t.sql.GetDirEntries lib id = .ok v := by
  unfold SQLStore.GetDirEntries at hg ⊢
  cases hs : tableGet s.sql.metadata (id, str "dir") with
  | none => simp [hs] at hg
  | some w =>
    simp only [hs] at hg
    simp only [h.2.1 _ w hs]
    exact hg

theorem HoldsAt_mono (lib : Lib) (s t : StoreState) (h : s.Extends t) (n : FsNode)
    (hn : HoldsAt lib s n) : HoldsAt lib t n := by
  cases n with
  | file data =>
    exact ⟨GetFileBlocks_mono lib s t h _ _ hn.1, fun c hc => GetBlock_mono s t h _ _ (hn.2 c hc)⟩
  | dir files => exact GetDirEntries_mono lib s t h _ _ hn

theorem chunkLoop_holds (lib : Lib) (xs : List Bytes) (hcf : CollisionFree lib xs) :
    ∀ (chunks : List Bytes) (blocks : List Block) (s : StoreState) (bs : List Block)
      (s1 : StoreState),
      RowsIn lib xs s → (∀ c ∈ chunks, c ∈ xs) →
      chunkLoop lib .sql chunks blocks s = .ok (bs, s1) →
      bs = blocks ++ chunks.map (fun c => ⟨lib.sha256hex c, c.length⟩) ∧ RowsIn lib xs s1 ∧
        s.Extends s1 ∧ ∀ c ∈ chunks, s1.sql.GetBlock (lib.sha256hex c) = .ok c := by
  intro chunks
  induction chunks with
  | nil =>
    intro blocks s bs s1 hrows _ h
    simp only [chunkLoop, Except.ok.injEq, Prod.mk.injEq] at h
    obtain ⟨rfl, rfl⟩ := h
    exact ⟨by simp, hrows, Extends_refl _, fun c hc => by cases hc⟩
  | cons c rest ih =>
    intro blocks s bs s1 hrows hxs h
    have hc : c ∈ xs := hxs c (List.mem_cons_self _ _)
    simp only [chunkLoop, StoreState.SaveBlock, SQLStore.SaveBlock] at h
    have hrows2 : RowsIn lib xs { s with sql := { s.sql with
        blocks := insertOrIgnore s.sql.blocks (lib.sha256hex c) c } } :=
      ⟨rows_insertOrIgnore lib xs id s.sql.blocks hrows.1 _ c hc rfl, hrows.2⟩
    obtain ⟨h1, h2, h3, h4⟩ := ih _ _ bs s1 hrows2
      (fun x hx => hxs x (List.mem_cons_of_mem _ hx)) h
    have hext : s.Extends { s with sql := { s.sql with
        blocks := insertOrIgnore s.sql.blocks (lib.sha256hex c) c } } :=
      ⟨tableExtends_insertOrIgnore _ _ _, tableExtends_refl _, fun _ hd => hd, tableExtends_refl _⟩
    refine ⟨by simp [h1], h2, Extends_trans hext h3, fun x hx => ?_⟩
    rcases List.mem_cons.mp hx with rfl | hx
    · apply GetBlock_mono _ _ h3
      simp only [SQLStore.GetBlock,
        get_inserted lib xs hcf id s.sql.blocks hrows.1 _ x hc rfl]
    · exact h4 x hx

theorem SaveMetadata_holds (lib : Lib) (xs : List Bytes) (hcf : CollisionFree lib xs)
    (s s1 : StoreState) (objType : GoString) (data : Bytes) (hrows : RowsIn lib xs s)
    (hdata : data ∈ xs)
    (h : s.SaveMetadata (lib.sha256hex data) objType data = .ok s1) :
    RowsIn lib xs s1 ∧ s.Extends s1 ∧
      tableGet s1.sql.metadata (lib.sha256hex data, objType) = some data := by
  simp only [StoreState.SaveMetadata, SQLStore.SaveMetadata, Except.ok.injEq] at h
  subst h
  exact ⟨⟨hrows.1, rows_insertOrIgnore lib xs Prod.fst s.sql.metadata hrows.2 _ data hdata rfl⟩,
    ⟨tableExtends_refl _, tableExtends_insertOrIgnore _ _ _, fun _ hd => hd, tableExtends_refl _⟩,
    get_inserted lib xs hcf Prod.fst s.sql.metadata hrows.2 _ data hdata rfl⟩

theorem CalculateDirID_eq (lib : Lib) (files : List (GoString × FsNode)) (dirID : GoString)
    (dirData : Bytes) (h : CalculateDirID lib (entriesOf lib files) = .ok (dirID, dirData)) :
    dirData = dirManifest lib files ∧ dirID = nodeID lib (.dir files) := by
  unfold CalculateDirID at h
  cases hm : lib.marshalEntries (sortedEntries lib (entriesOf lib files)) with
  | error e => simp [hm] at h
  | ok d =>
    simp only [hm, Except.ok.injEq, Prod.mk.injEq] at h
    obtain ⟨h1, h2⟩ := h
    subst h2
    refine ⟨by simp [dirManifest, hm, bytesOr], ?_⟩
    rw [nodeID, hm, ← h1]
    rfl

theorem CalculateFileID_eq (lib : Lib) (data : Bytes) (fileID : GoString) (fileData : Bytes)
    (h : CalculateFileID lib (fileBlocks lib data) = .ok (fileID, fileData)) :
    fileData = fileManifest lib data ∧ fileID = nodeID lib (.file data) := by
  unfold CalculateFileID at h
  cases hm : lib.marshalBlocks (fileBlocks lib data) with
  | error e => simp [hm] at h
  | ok d =>
    simp only [hm, Except.ok.injEq, Prod.mk.injEq] at h
    obtain ⟨h1, h2⟩ := h
    subst h2
    refine ⟨by simp [fileManifest, hm, bytesOr], ?_⟩
    rw [nodeID, fileManifest, hm, ← h1]
    rfl

mutual
theorem ProcessDirectory_holds (lib : Lib) (xs : List Bytes) (hcf : CollisionFree lib xs) :
    ∀ (node : FsNode) (s : StoreState) (r : GoString) (s1 : StoreState),
      RowsIn lib xs s →
      (∀ n ∈ node.subnodes, (∀ a ∈ localArtifacts lib n, a ∈ xs) ∧ LosslessAt lib n) →
      ProcessDirectory lib .sql node s = .ok (r, s1) →
      r = nodeID lib node ∧ RowsIn lib xs s1 ∧ s.Extends s1 ∧
        ∀ n ∈ node.subnodes, HoldsAt lib s1 n
  | .file _, s, r, s1, _, _, h => by simp [ProcessDirectory] at h
  | .dir files, s, r, s1, hrows, hready, h => by
    simp only [ProcessDirectory] at h
    cases hp : processFiles lib .sql files [] s with
    | error e => simp [hp] at h
    | ok res =>
      obtain ⟨entries, sa⟩ := res
      simp only [hp] at h
      obtain ⟨he, hra, hea, hha⟩ := processFiles_holds lib xs hcf files [] s entries sa hrows
        (fun n hn => hready n (by simp [FsNode.subnodes, hn])) hp
      simp only [List.nil_append] at he
      subst he
      cases hc : CalculateDirID lib (entriesOf lib files) with
      | error e => simp [hc] at h
      | ok idData =>
        obtain ⟨dirID, dirData⟩ := idData
        simp only [hc] at h
        obtain ⟨hd1, hd2⟩ := CalculateDirID_eq lib files dirID dirData hc
        have hid : dirID = lib.sha256hex dirData := by
          rw [hd2, hd1, nodeID]; rfl
        cases hs : sa.SaveMetadata dirID (str "dir") dirData with
        | error e => simp [hs] at h
        | ok s2 =>
          simp only [hs, Except.ok.injEq, Prod.mk.injEq] at h
          obtain ⟨rfl, rfl⟩ := h
          have hself := hready (.dir files) (by simp [FsNode.subnodes])
          have hin : dirData ∈ xs := hself.1 dirData (by simp [localArtifacts, hd1])
          rw [hid] at hs
          obtain ⟨hr2, he2, hg2⟩ := SaveMetadata_holds lib xs hcf sa s2 (str "dir") dirData hra hin hs
          refine ⟨hd2, hr2, Extends_trans hea he2, fun n hn => ?_⟩
          simp only [FsNode.subnodes, List.mem_cons] at hn
          rcases hn with rfl | hn
          · show s2.sql.GetDirEntries lib (nodeID lib (.dir files)) = _
            rw [← hd2, hid]
            simp only [SQLStore.GetDirEntries, hg2]
            have hl : lib.unmarshalEntries (dirManifest lib files) =
                .ok (sortedEntries lib (entriesOf lib files)) := hself.2
            rw [hd1, hl]
          · exact HoldsAt_mono lib sa s2 he2 n (hha n hn)
theorem processFiles_holds (lib : Lib) (xs : List Bytes) (hcf : CollisionFree lib xs) :
    ∀ (files : List (GoString × FsNode)) (acc : List DirEntry) (s : StoreState)
      (entries : List DirEntry) (s1 : StoreState),
      RowsIn lib xs s →
      (∀ n ∈ subnodesOf files, (∀ a ∈ localArtifacts lib n, a ∈ xs) ∧ LosslessAt lib n) →
      processFiles lib .sql files acc s = .ok (entries, s1) →
      entries = acc ++ entriesOf lib files ∧ RowsIn lib xs s1 ∧ s.Extends s1 ∧
        ∀ n ∈ subnodesOf files, HoldsAt lib s1 n
  | [], acc, s, entries, s1, hrows, _, h => by
    simp only [processFiles, Except.ok.injEq, Prod.mk.injEq] at h
    obtain ⟨rfl, rfl⟩ := h
    exact ⟨by simp [entriesOf], hrows, Extends_refl _, fun n hn => by simp [subnodesOf] at hn⟩
  | (name, .dir sub) :: rest, acc, s, entries, s1, hrows, hready, h => by
    simp only [processFiles] at h
    cases hp : ProcessDirectory lib .sql (.dir sub) s with
    | error e => simp [hp] at h
    | ok res =>
      obtain ⟨childID, sa⟩ := res
      simp only [hp] at h
      obtain ⟨hid, hra, hea, hha⟩ := ProcessDirectory_holds lib xs hcf (.dir sub) s childID sa hrows
        (fun n hn => hready n (by simp [subnodesOf, hn])) hp
      obtain ⟨he, hr1, he1, hh1⟩ := processFiles_holds lib xs hcf rest _ sa entries s1 hra
        (fun n hn => hready n (by simp [subnodesOf, hn])) h
      refine ⟨by simp [he, entriesOf, kindOf, hid], hr1, Extends_trans hea he1, fun n hn => ?_⟩
      simp only [subnodesOf, List.mem_append] at hn
      rcases hn with hn | hn
      · exact HoldsAt_mono lib sa s1 he1 n (hha n hn)
      · exact hh1 n hn
  | (name, .file data) :: rest, acc, s, entries, s1, hrows, hready, h => by
    simp only [processFiles, ChunkFile] at h
    have hself := hready (.file data) (by simp [subnodesOf, FsNode.subnodes])
    cases hp : chunkLoop lib .sql (lib.chunks data) [] s with
    | error e => simp [hp] at h
    | ok res =>
      obtain ⟨blocks, sa⟩ := res
      simp only [hp] at h
      obtain ⟨hb, hra, hea, hga⟩ := chunkLoop_holds lib xs hcf (lib.chunks data) [] s blocks sa
        hrows (fun c hc => hself.1 c (by simp [localArtifacts, hc])) hp
      simp only [List.nil_append] at hb
      have hb2 : blocks = fileBlocks lib data := hb
      subst hb2
      cases hc : CalculateFileID lib (fileBlocks lib data) with
      | error e => simp [hc] at h
      | ok idData =>
        obtain ⟨childID, fileData⟩ := idData
        simp only [hc] at h
        obtain ⟨hd1, hd2⟩ := CalculateFileID_eq lib data childID fileData hc
        have hid : childID = lib.sha256hex fileData := by
          rw [hd2, hd1, nodeID]
        cases hs : sa.SaveMetadata childID (str "file") fileData with
        | error e => simp [hs] at h
        | ok s2 =>
          simp only [hs] at h
          have hin : fileData ∈ xs := hself.1 fileData (by simp [localArtifacts, hd1])
          rw [hid] at hs
          obtain ⟨hr2, he2, hg2⟩ :=
            SaveMetadata_holds lib xs hcf sa s2 (str "file") fileData hra hin hs
          obtain ⟨he, hr1, he1, hh1⟩ := processFiles_holds lib xs hcf rest _ s2 entries s1 hr2
            (fun n hn => hready n (by simp [subnodesOf, hn])) h
          refine ⟨by simp [he, entriesOf, kindOf, hd2],
            hr1, Extends_trans hea (Extends_trans he2 he1), fun n hn => ?_⟩
          simp only [subnodesOf, FsNode.subnodes, List.mem_append, List.mem_singleton] at hn
          rcases hn with rfl | hn
          · apply HoldsAt_mono lib s2 s1 he1
            refine ⟨?_, fun c hc => GetBlock_mono sa s2 he2 _ _ (hga c hc)⟩
            rw [← hd2, hid]
            simp only [SQLStore.GetFileBlocks, hg2]
            have hl : lib.unmarshalBlocks (fileManifest lib data) = .ok (fileBlocks lib data) :=
              hself.2
            rw [hd1, hl]
          · exact hh1 n hn
end

/-! ### Restoring a tree the store serves -/

theorem readBlocks_ok (lib : Lib) (db : Store) : ∀ (chunks : List Bytes) (acc : Bytes),
    (∀ c ∈ chunks, db.GetBlock (lib.sha256hex c) = .ok c) →
    readBlocks db (chunks.map (fun c => ⟨lib.sha256hex c, c.length⟩)) acc =
      .ok (acc ++ chunks.flatten) := by
  intro chunks
  induction chunks with
  | nil => intro acc _; simp [readBlocks]
  | cons c rest ih =>
    intro acc h
    simp only [List.map_cons, readBlocks, h c (List.mem_cons_self _ _), List.flatten_cons]
    rw [ih (acc ++ c) (fun x hx => h x (List.mem_cons_of_mem _ hx)), List.append_assoc]

theorem buildFile_ok {φ : Type} (os : FileSys φ) (lib : Lib) (s : StoreState) (fs : φ)
    (path : Path) (data : Bytes) (h : Restorable lib s (.file data)) :
    buildFile os (s.view lib .sql) fs path (nodeID lib (.file data)) =
      (none, (os.WriteFile fs path data).2) := by
  obtain ⟨⟨h1, h2⟩, _, h3⟩ := h
  have hr := readBlocks_ok lib (s.view lib .sql) (lib.chunks data) [] h2
  simp only [List.nil_append] at hr
  have h3 : (lib.chunks data).flatten = data := h3
  rw [h3] at hr
  have h1 : (s.view lib .sql).GetFileBlocks (nodeID lib (.file data)) =
      .ok (fileBlocks lib data) := h1
  simp only [buildFile, h1, fileBlocks, hr]

theorem height_le_heightOf : ∀ (files : List (GoString × FsNode)) (f : GoString × FsNode),
    f ∈ files → f.2.height ≤ heightOf files := by
  intro files
  induction files with
  | nil => intro f hf; cases hf
  | cons g rest ih =>
    intro f hf
    obtain ⟨gn, gnode⟩ := g
    simp only [heightOf]
    rcases List.mem_cons.mp hf with rfl | hf
    · exact le_max_left _ _
    · exact le_trans (ih f hf) (le_max_right _ _)

theorem subnodes_of_mem : ∀ (files : List (GoString × FsNode)) (f : GoString × FsNode),
    f ∈ files → ∀ n ∈ f.2.subnodes, n ∈ subnodesOf files := by
  intro files
  induction files with
  | nil => intro f hf; cases hf
  | cons g rest ih =>
    intro f hf n hn
    obtain ⟨gn, gnode⟩ := g
    simp only [subnodesOf, List.mem_append]
    rcases List.mem_cons.mp hf with rfl | hf
    · exact Or.inl hn
    · exact Or.inr (ih f hf n hn)

theorem entriesOf_eq_map (lib : Lib) : ∀ (files : List (GoString × FsNode)),
    entriesOf lib files = files.map (fun f => ⟨f.1, kindOf f.2, nodeID lib f.2⟩) := by
  intro files
  induction files with
  | nil => simp [entriesOf]
  | cons g rest ih =>
    obtain ⟨gn, gnode⟩ := g
    simp [entriesOf, ih]

theorem sortedFiles_perm (files : List (GoString × FsNode)) : (sortedFiles files).Perm files :=
  List.perm_insertionSort _ files

theorem sortedFiles_sorted (files : List (GoString × FsNode)) :
    (sortedFiles files).Pairwise (fun a b => ¬ b.1 < a.1) := by
  haveI : IsTotal (GoString × FsNode) (fun a b => ¬ b.1 < a.1) :=
    ⟨fun a b => by
      rcases lt_trichotomy a.1 b.1 with h | h | h
      · exact Or.inl (not_lt.mpr (le_of_lt h))
      · exact Or.inl (by rw [h]; exact lt_irrefl _)
      · exact Or.inr (not_lt.mpr (le_of_lt h))⟩
  haveI : IsTrans (GoString × FsNode) (fun a b => ¬ b.1 < a.1) :=
    ⟨fun a b c hab hbc => not_lt.mpr (le_trans (not_lt.mp hab) (not_lt.mp hbc))⟩
  exact List.sorted_insertionSort _ files

theorem entriesOf_names (lib : Lib) (files : List (GoString × FsNode)) :
    (entriesOf lib files).map DirEntry.Name = files.map Prod.fst := by
  rw [entriesOf_eq_map, List.map_map]
  rfl

/-- With distinct names, the manifest CalculateDirID serializes lists the
entries of the listing in the order of the names, whatever sort.Slice is used. -/
theorem entriesOf_sortedFiles (lib : Lib) (hsort : SortsByName lib)
    (files : List (GoString × FsNode)) (hdistinct : (files.map Prod.fst).Nodup) :
    entriesOf lib (sortedFiles files) = sortedEntries lib (entriesOf lib files) := by
  have hd2 : ((entriesOf lib files).map DirEntry.Name).Nodup := by
    rw [entriesOf_names]; exact hdistinct
  have hperm : (entriesOf lib (sortedFiles files)).Perm (entriesOf lib files) := by
    rw [entriesOf_eq_map, entriesOf_eq_map]
    exact (sortedFiles_perm files).map _
  have hd1 : ((entriesOf lib (sortedFiles files)).map DirEntry.Name).Nodup :=
    (hperm.map DirEntry.Name).nodup_iff.mpr hd2
  have hs1 : (entriesOf lib (sortedFiles files)).Pairwise (fun a b => ¬ b.Name < a.Name) := by
    rw [entriesOf_eq_map, List.pairwise_map]
    exact sortedFiles_sorted files
  exact strictSorted_unique _ _ (hperm.trans (sortedEntries_perm lib hsort _).symm)
    (strict_of_sorted_nodup _ hs1 hd1) (sortedEntries_strict lib hsort _ hd2)

theorem find_name_perm : ∀ (l1 l2 : List (GoString × FsNode)), l1.Perm l2 →
    (l1.map Prod.fst).Nodup → ∀ name,
    l1.find? (fun f => f.1 = name) = l2.find? (fun f => f.1 = name) := by
  intro l1 l2 hp
  induction hp with
  | nil => intro _ _; rfl
  | cons x _ ih =>
    intro hnd name
    simp only [List.map_cons, List.nodup_cons] at hnd
    simp only [List.find?_cons]
    split
    · rfl
    · exact ih hnd.2 name
  | swap x y l =>
    intro hnd name
    simp only [List.map_cons, List.nodup_cons, List.mem_cons, not_or] at hnd
    simp only [List.find?_cons]
    by_cases hx : x.1 = name
    · by_cases hy : y.1 = name
      · exact absurd (hy.trans hx.symm) hnd.1.1
      · simp [hx, hy]
    · by_cases hy : y.1 = name <;> simp [hx, hy]
  | trans h1 _ ih1 ih2 =>
    intro hnd name
    rw [ih1 hnd name, ih2 ((h1.map Prod.fst).nodup_iff.mp hnd) name]

theorem lookupIn_concat (done : List (GoString × FsNode)) (name : GoString) (node : FsNode)
    (hnew : name ∉ done.map Prod.fst) (nm : GoString) (rest : Path) :
    lookupIn (done ++ [(name, node)]) nm rest =
      if nm = name then node.lookup rest else lookupIn done nm rest := by
  unfold lookupIn
  rw [List.find?_append]
  by_cases h : nm = name
  · subst h
    have hnone : done.find? (fun f => f.1 = nm) = none := by
      rw [List.find?_eq_none]
      intro f hf hfn
      exact hnew (List.mem_map.mpr ⟨f, hf, by simpa using hfn⟩)
    simp [hnone, List.find?_cons]
  · have hne : ¬ name = nm := fun hh => h hh.symm
    cases hd : done.find? (fun f => f.1 = nm) <;> simp [h, hne, List.find?_cons]

theorem concat_not_initial (path rest : Path) (name nm : GoString) (h : nm ≠ name) :
    ¬ (path ++ [name]) <+: (path ++ nm :: rest) := by
  rw [List.prefix_append_right_inj]
  intro hp
  obtain ⟨t, ht⟩ := hp
  simp only [List.singleton_append, List.cons.injEq] at ht
  exact h ht.1.symm

theorem concat_not_initial_of_initial (path q : Path) (name : GoString) (h : q <+: path) :
    ¬ (path ++ [name]) <+: q := by
  intro hp
  have h1 := hp.length_le
  have h2 := h.length_le
  simp at h1
  omega

theorem loop_step (fs fs1 : FsState) (path : Path) (done : List (GoString × FsNode))
    (name : GoString) (node : FsNode) (hJ : RestoredSoFar fs path done)
    (hnew : name ∉ done.map Prod.fst)
    (h1 : ∀ p, fs1 (path ++ name :: p) = node.lookup p)
    (h2 : ∀ q, ¬ (path ++ [name]) <+: q → fs1 q = fs q) :
    RestoredSoFar fs1 path (done ++ [(name, node)]) ∧
      ∀ q, (¬ path <+: q ∨ q = path) → fs1 q = fs q := by
  refine ⟨⟨fun q hq => ?_, fun nm rest => ?_⟩, fun q hq => ?_⟩
  · rw [h2 q (concat_not_initial_of_initial path q name hq)]
    exact hJ.1 q hq
  · rw [lookupIn_concat done name node hnew nm rest]
    by_cases hnm : nm = name
    · subst hnm
      simp only [if_true]
      exact h1 rest
    · simp only [hnm, if_false]
      rw [h2 _ (concat_not_initial path rest name nm hnm)]
      exact hJ.2 nm rest
  · apply h2
    rcases hq with hq | rfl
    · intro hp
      exact hq ((List.prefix_append path [name]).trans hp)
    · exact concat_not_initial_of_initial q q name (List.prefix_refl q)

theorem MkdirAll_ok (fs : FsState) (path : Path) (h : ∀ q, q <+: path → isFile (fs q) = false) :
    idealOS.MkdirAll fs path = (none, fun q => if q <+: path then some .dir else fs q) := by
  have hno : ¬ ∃ q ∈ path.inits, isFile (fs q) = true := by
    rintro ⟨q, hq, hf⟩
    rw [h q ((List.mem_inits q path).mp hq)] at hf
    cases hf
  simp only [idealOS, hno, if_false]

theorem WriteFile_ok (fs : FsState) (path : Path) (data : Bytes) (h1 : path ≠ [])
    (h2 : fs path.dropLast = some .dir) (h3 : fs path ≠ some .dir) :
    idealOS.WriteFile fs path data =
      (none, fun q => if q = path then some (.file data) else fs q) := by
  simp only [idealOS, h1, h2, h3, ne_eq, not_false_eq_true, and_self, if_true]

theorem lookupIn_none (done : List (GoString × FsNode)) (name : GoString) (rest : Path)
    (hnew : name ∉ done.map Prod.fst) : lookupIn done name rest = none := by
  unfold lookupIn
  have hnone : done.find? (fun f => f.1 = name) = none := by
    rw [List.find?_eq_none]
    intro f hf hfn
    exact hnew (List.mem_map.mpr ⟨f, hf, by simpa using hfn⟩)
  rw [hnone]

theorem buildEach_ok (lib : Lib) (s : StoreState) (fuel : Nat) (path : Path)
    (hrec : ∀ sub, (∀ n ∈ (FsNode.dir sub).subnodes, Restorable lib s n) →
      (FsNode.dir sub).height ≤ fuel → ∀ fs p, EmptyAt fs p →
      ∃ fs1, build idealOS (s.view lib .sql) fuel fs p (nodeID lib (.dir sub)) = (none, fs1) ∧
        RestoredAt fs fs1 p (.dir sub)) :
    ∀ (todo done : List (GoString × FsNode)) (fs : FsState),
      RestoredSoFar fs path done → ((done ++ todo).map Prod.fst).Nodup →
      (∀ f ∈ todo, (∀ n ∈ f.2.subnodes, Restorable lib s n) ∧ f.2.height ≤ fuel) →
      ∃ fs1, buildEach idealOS (s.view lib .sql) (build idealOS (s.view lib .sql) fuel) path
          (entriesOf lib todo) fs = (none, fs1) ∧
        RestoredSoFar fs1 path (done ++ todo) ∧
        ∀ q, (¬ path <+: q ∨ q = path) → fs1 q = fs q := by
  intro todo
  induction todo with
  | nil =>
    intro done fs hJ _ _
    exact ⟨fs, by simp [entriesOf, buildEach], by simpa using hJ, fun _ _ => rfl⟩
  | cons item rest ih =>
    intro done fs hJ hnd hall
    obtain ⟨name, node⟩ := item
    have hnew : name ∉ done.map Prod.fst := by
      simp only [List.map_append, List.map_cons] at hnd
      have := (List.nodup_append.mp hnd).2.2
      intro hmem
      exact this hmem (List.mem_cons_self _ _)
    have hnd2 : (((done ++ [(name, node)]) ++ rest).map Prod.fst).Nodup := by
      simpa using hnd
    have hitem := hall (name, node) (List.mem_cons_self _ _)
    have hrest : ∀ f ∈ rest, (∀ n ∈ f.2.subnodes, Restorable lib s n) ∧ f.2.height ≤ fuel :=
      fun f hf => hall f (List.mem_cons_of_mem _ hf)
    have hself : fs (path ++ [name]) = none := by
      have := hJ.2 name []
      rw [lookupIn_none done name [] hnew] at this
      exact this
    -- what the step for this item leaves behind
    have hstep : ∃ fs1,
        (if kindOf node = str "file" then
            buildFile idealOS (s.view lib .sql) fs (filepathJoin path name) (nodeID lib node)
          else build idealOS (s.view lib .sql) fuel fs (filepathJoin path name) (nodeID lib node)) =
          (none, fs1) ∧
        (∀ p, fs1 (path ++ name :: p) = node.lookup p) ∧
        (∀ q, ¬ (path ++ [name]) <+: q → fs1 q = fs q) := by
      cases node with
      | file data =>
        have hR : Restorable lib s (.file data) := hitem.1 _ (by simp [FsNode.subnodes])
        have hw := WriteFile_ok fs (path ++ [name]) data (by simp)
          (by rw [List.dropLast_concat]; exact hJ.1 path (List.prefix_refl _))
          (by rw [hself]; exact fun hh => by cases hh)
        refine ⟨fun q => if q = path ++ [name] then some (.file data) else fs q, ?_, ?_, ?_⟩
        · simp only [kindOf, if_true, filepathJoin, buildFile_ok idealOS lib s fs _ data hR, hw]
        · intro p
          cases p with
          | nil => simp [FsNode.lookup]
          | cons r rs =>
            have hne : ¬ path ++ name :: r :: rs = path ++ [name] := by
              intro hh
              have := congrArg List.length hh
              simp at this
            simp only [hne, if_false, FsNode.lookup]
            rw [hJ.2 name (r :: rs), lookupIn_none done name _ hnew]
        · intro q hq
          have hne : ¬ q = path ++ [name] := fun hh => hq (hh ▸ List.prefix_refl _)
          simp only [hne, if_false]
      | dir sub =>
        have hempty : EmptyAt fs (path ++ [name]) := by
          refine ⟨fun q hq => ?_, fun nm r => ?_⟩
          · rcases List.prefix_concat_iff.mp hq with rfl | hq
            · rw [hself]; rfl
            · rw [hJ.1 q hq]; rfl
          · have : path ++ [name] ++ nm :: r = path ++ name :: nm :: r := by simp
            rw [this, hJ.2 name (nm :: r), lookupIn_none done name _ hnew]
        obtain ⟨fs1, hb, hpost⟩ := hrec sub hitem.1 hitem.2 fs (path ++ [name]) hempty
        refine ⟨fs1, ?_, ?_, ?_⟩
        · have hk : ¬ str "dir" = str "file" := fun hh => file_ne_dir hh.symm
          simp only [kindOf, hk, if_false, filepathJoin, hb]
        · intro p
          have : path ++ name :: p = path ++ [name] ++ p := by simp
          rw [this]
          exact hpost.1 p
        · intro q hq
          by_cases hqp : q <+: path ++ [name]
          · rcases List.prefix_concat_iff.mp hqp with rfl | hqp
            · exact absurd (List.prefix_refl _) hq
            · rw [hpost.2.1 q ((hqp.trans (List.prefix_append path [name]))), hJ.1 q hqp]
          · exact hpost.2.2 q hq hqp
    obtain ⟨fs1, hrun, hs1, hs2⟩ := hstep
    obtain ⟨hJ1, hframe1⟩ := loop_step fs fs1 path done name node hJ hnew hs1 hs2
    obtain ⟨fs2, hrun2, hJ2, hframe2⟩ := ih (done ++ [(name, node)]) fs1 hJ1 hnd2 hrest
    refine ⟨fs2, ?_, by simpa using hJ2, fun q hq => (hframe2 q hq).trans (hframe1 q hq)⟩
    simp only [entriesOf, buildEach]
    by_cases hk : kindOf node = str "file"
    · simp only [hk, if_true] at hrun ⊢
      simp only [hrun, hrun2]
    · simp only [hk, if_false] at hrun ⊢
      simp only [hrun, hrun2]

theorem build_ok (lib : Lib) (hsort : SortsByName lib) (s : StoreState) :
    ∀ (fuel : Nat) (files : List (GoString × FsNode)),
    (∀ n ∈ (FsNode.dir files).subnodes, Restorable lib s n) →
    (FsNode.dir files).height ≤ fuel → ∀ fs path, EmptyAt fs path →
    ∃ fs1, build idealOS (s.view lib .sql) fuel fs path (nodeID lib (.dir files)) = (none, fs1) ∧
      RestoredAt fs fs1 path (.dir files) := by
  intro fuel
  induction fuel with
  | zero =>
    intro files _ hh
    simp [FsNode.height] at hh
  | succ fuel ih =>
    intro files hall hh fs path hempty
    have hroot := hall (.dir files) (by simp [FsNode.subnodes])
    have hdistinct : (files.map Prod.fst).Nodup := hroot.2.1
    have hget : (s.view lib .sql).GetDirEntries (nodeID lib (.dir files)) =
        .ok (entriesOf lib (sortedFiles files)) := by
      rw [entriesOf_sortedFiles lib hsort files hdistinct]
      exact hroot.1
    have hmk := MkdirAll_ok fs path hempty.1
    have hJ0 : RestoredSoFar (fun q => if q <+: path then some FsObj.dir else fs q) path [] := by
      refine ⟨fun q hq => by simp [hq], fun nm rest => ?_⟩
      have hnp : ¬ (path ++ nm :: rest) <+: path := by
        intro hp
        have := hp.length_le
        simp at this
      simp only [hnp, if_false, lookupIn, List.find?_nil]
      exact hempty.2 nm rest
    have hperm := sortedFiles_perm files
    have hnd : (([] ++ sortedFiles files).map Prod.fst).Nodup := by
      simpa using (hperm.map Prod.fst).nodup_iff.mpr hdistinct
    simp only [FsNode.height] at hh
    obtain ⟨fs1, hrun, hJ, hframe⟩ := buildEach_ok lib s fuel path ih (sortedFiles files) [] _ hJ0 hnd
      (fun f hf => by
        have hfm : f ∈ files := hperm.subset hf
        refine ⟨fun n hn => hall n ?_, ?_⟩
        · simp only [FsNode.subnodes, List.mem_cons]
          exact Or.inr (subnodes_of_mem files f hfm n hn)
        · have := height_le_heightOf files f hfm
          omega)
    refine ⟨fs1, ?_, ?_, fun q hq => ?_, fun q hq1 hq2 => ?_⟩
    · simp only [build, hget, hmk, hrun]
    · intro p
      cases p with
      | nil =>
        rw [List.append_nil, hframe path (Or.inr rfl)]
        simp [FsNode.lookup]
      | cons nm rest =>
        rw [hJ.2 nm rest]
        simp only [List.nil_append, lookupIn, FsNode.lookup]
        rw [find_name_perm _ _ hperm ((hperm.map Prod.fst).nodup_iff.mpr hdistinct) nm]
    · exact hJ.1 q hq
    · rw [hframe q (Or.inl hq1)]
      simp [hq2]

/-- C1, as stated, fails for names that are not valid UTF-8. The tree holds
two files named by the single bytes 0xFE and 0xFF (distinct names without a
separator); chunks concatenate to the files, the digest is injective and the
store starts empty. ProcessDirectory returns a root id and build returns nil,
yet the restored directory does not hold the two files: it holds a single
file named U+FFFD with the bytes of the second one. -/
theorem restore_loses_invalid_utf8_names :
    ([[254], [255]] : List GoString).Nodup ∧ validName [254] = true ∧ validName [255] = true ∧
    (FsNode.dir [([254], .file (str "a1")), ([255], .file (str "b2"))]).lookup [[254]] =
      some (.file (str "a1")) ∧
    (FsNode.dir [([254], .file (str "a1")), ([255], .file (str "b2"))]).lookup [[255]] =
      some (.file (str "b2")) ∧
    (FsNode.dir [([254], .file (str "a1")), ([255], .file (str "b2"))]).lookup [[239, 191, 189]] =
      none ∧
    ∃ root s1 fs1,
      ProcessDirectory goJsonLib .sql (.dir [([254], .file (str "a1")), ([255], .file (str "b2"))])
        StoreState.empty = .ok (root, s1) ∧
      build idealOS (s1.view goJsonLib .sql) 1 (fun _ => none) [str "out"] root = (none, fs1) ∧
      fs1 [str "out", [254]] = none ∧
      fs1 [str "out", [255]] = none ∧
      fs1 [str "out", [239, 191, 189]] = some (.file (str "b2")) :=
  ⟨by decide, by decide, by decide, by decide, by decide, by decide,
    _, _, _, rfl, rfl, by decide, by decide, by decide⟩

/-- C1, amended. Round trip. Let tree be a directory tree whose listings have
distinct names that are single path components, let the chunks the chunker
emits for each file concatenate to the file, let sort.Slice meet its contract,
let json.Unmarshal give back each manifest of the tree from its serialized
form (no name is changed in serializing), let the store before the run hold
every row under the digest of its bytes, and let the hash have no collision
among the stored byte sequences and the artifacts of the tree. If
ProcessDirectory on the relational store (maps with insert-or-ignore writes)
returns the root id, then build on a healthy file system with an empty
destination returns nil (given a depth budget of at least the height of the
tree), and afterwards every path below the destination names exactly what it
names in the tree: the same names, the same structure and the same file
bytes; paths away from the destination are untouched. -/
theorem restore_roundtrip (lib : Lib) (tree : FsNode) (s0 s1 : StoreState) (root : GoString)
    (fs0 : FsState) (dest : Path) (fuel : Nat)
    (hnames : ∀ n ∈ tree.subnodes, DistinctAt n ∧ ValidNamesAt n)
    (hchunks : ∀ n ∈ tree.subnodes, ChunksAt lib n)
    (hsort : SortsByName lib)
    (hcodec : ∀ n ∈ tree.subnodes, LosslessAt lib n)
    (hstore : s0.Consistent lib)
    (hhash : CollisionFree lib (storedBytes s0 ++ artifacts lib tree))
    (hrun : ProcessDirectory lib .sql tree s0 = .ok (root, s1))
    (hdest : EmptyAt fs0 dest) (hfuel : tree.height ≤ fuel) :
    ∃ fs1, build idealOS (s1.view lib .sql) fuel fs0 dest root = (none, fs1) ∧
      (∀ p, fs1 (dest ++ p) = tree.lookup p) ∧
      (∀ q, ¬ dest <+: q → ¬ q <+: dest → fs1 q = fs0 q) := by
  have hrows : RowsIn lib (storedBytes s0 ++ artifacts lib tree) s0 := by
    refine ⟨fun row hrow => ⟨hstore.1 row hrow, ?_⟩, fun row hrow => ⟨hstore.2 row hrow, ?_⟩⟩
    · exact List.mem_append_left _ (List.mem_append_left _ (List.mem_map_of_mem _ hrow))
    · exact List.mem_append_left _ (List.mem_append_right _ (List.mem_map_of_mem _ hrow))
  obtain ⟨hroot, _, _, hholds⟩ := ProcessDirectory_holds lib _ hhash tree s0 root s1 hrows
    (fun n hn => ⟨fun a ha => List.mem_append_right _ (List.mem_flatMap.mpr ⟨n, hn, ha⟩),
      hcodec n hn⟩) hrun
  cases tree with
  | file data => simp [ProcessDirectory] at hrun
  | dir files =>
    obtain ⟨fs1, hb, hpost⟩ := build_ok lib hsort s1 fuel files
      (fun n hn => ⟨hholds n hn, (hnames n hn).1, hchunks n hn⟩) hfuel fs0 dest hdest
    rw [hroot]
    exact ⟨fs1, hb, hpost.1, hpost.2.2⟩

theorem chunkPairs_flatten : ∀ (data : Bytes), (chunkPairs data).flatten = data
  | [] => rfl
  | [_] => rfl
  | a :: b :: rest => by simp [chunkPairs, chunkPairs_flatten rest]

/-- C1, amended, at the sample tree, from an empty store into an empty file
system, on the library instance that treats strings as encoding/json does. -/
theorem restore_roundtrip_witness :
    ∃ root s1 fs1,
      ProcessDirectory goJsonLib .sql sampleTree StoreState.empty = .ok (root, s1) ∧
      build idealOS (s1.view goJsonLib .sql) 2 (fun _ => none) [str "out"] root = (none, fs1) ∧
      fs1 [str "out"] = some .dir ∧
      fs1 [str "out", str "a"] = some (.file []) ∧
      fs1 [str "out", str "b.txt"] = some (.file (str "hello")) ∧
      fs1 [str "out", str "e"] = some .dir ∧
      fs1 [str "out", str "sub"] = some .dir ∧
      fs1 [str "out", str "sub", str "c"] = some (.file (str "hi")) ∧
      fs1 [str "out", str "other"] = none := by
  have hsub : ∀ n ∈ sampleTree.subnodes,
      n = sampleTree ∨ n = .dir [(str "c", .file (str "hi"))] ∨ n = .file (str "hi") ∨
        n = .file (str "hello") ∨ n = .dir [] ∨ n = .file [] := by
    intro n hn
    simpa [sampleTree, FsNode.subnodes, subnodesOf] using hn
  obtain ⟨fs1, hb, hlook, _⟩ := restore_roundtrip goJsonLib sampleTree StoreState.empty _ _
    (fun _ => none) [str "out"] 2
    (fun n hn => by
      rcases hsub n hn with rfl | rfl | rfl | rfl | rfl | rfl
      all_goals simp [DistinctAt, ValidNamesAt, sampleTree]
      all_goals decide)
    (fun n _ => by
      cases n with
      | file data => exact chunkPairs_flatten data
      | dir files => trivial)
    goJsonLib_sorts
    (fun n hn => by
      rcases hsub n hn with rfl | rfl | rfl | rfl | rfl | rfl <;> rfl)
    ⟨fun _ h => (by cases h), fun _ h => (by cases h)⟩
    (fun a _ b _ h => by simpa [goJsonLib, refLib] using h)
    rfl
    ⟨fun _ _ => rfl, fun _ _ => rfl⟩
    (by decide)
  refine ⟨_, _, fs1, rfl, hb, ?_, ?_, ?_, ?_, ?_, ?_, ?_⟩
  · simpa [sampleTree, FsNode.lookup] using hlook []
  · simpa [sampleTree, FsNode.lookup] using hlook [str "a"]
  · simpa [sampleTree, FsNode.lookup] using hlook [str "b.txt"]
  · simpa [sampleTree, FsNode.lookup] using hlook [str "e"]
  · simpa [sampleTree, FsNode.lookup] using hlook [str "sub"]
  · simpa [sampleTree, FsNode.lookup] using hlook [str "sub", str "c"]
  · simpa [sampleTree, FsNode.lookup] using hlook [str "other"]

end GoSync
